import Mathlib

/-!
Verification development for the product/project directory protocol
(`system.py`): directory scanning, product index persistence, path
algebra and context resolution.  Python strings are modelled as `List
Char`, factor paths as lists of segments, dictionaries as association
lists in insertion order, and the filesystem as an inductive directory
tree.  Fallible operations return `Except String`.
-/

namespace ProjectSystem

/-- Characters of a Python string token. -/
abbrev Tok := List Char

/-- A factor path: a list of `.`-separated segments (`types.FactorPath`). -/
abbrev FP := List Tok

/-- Whitespace test used by Python's `str.split()` / `str.strip()` model. -/
def isWs (c : Char) : Bool := c == ' ' || c == '\n' || c == '\t' || c == '\r'

/-- Split a character list at every character satisfying `p`
(model of Python `str.split(sep)`, which keeps empty chunks). -/
def splitP (p : Char → Bool) : List Char → List (List Char)
  | [] => [[]]
  | a :: as =>
    match splitP p as with
    | [] => [[]]
    | s :: ss => if p a then [] :: s :: ss else (a :: s) :: ss

/-- Python `str.split()` with no argument: split on whitespace runs,
discarding empty chunks. -/
def pysplit (s : List Char) : List (List Char) :=
  (splitP isWs s).filter (fun t => !t.isEmpty)

/-- Python `str.strip()`: drop leading and trailing whitespace. -/
def pyStrip (s : List Char) : List Char :=
  ((s.dropWhile isWs).reverse.dropWhile isWs).reverse

/-- Python `sep.join(chunks)` for a single separator character. -/
def joinSep (d : Char) : List (List Char) → List Char
  | [] => []
  | [t] => t
  | t :: ts => t ++ d :: joinSep d ts

/-- A well-formed token: nonempty and whitespace free (the spec's open
question assumes index fields contain no whitespace). -/
def wfTok (t : Tok) : Bool := !t.isEmpty && t.all (fun c => !isWs c)

/-- A well-formed path segment: nonempty, whitespace free and dot free. -/
def wfSeg (s : Tok) : Bool := !s.isEmpty && s.all (fun c => !isWs c && c != '.')

/-- A well-formed nonempty factor path. -/
def wfFP (fp : FP) : Bool := !fp.isEmpty && fp.all wfSeg

/-- String form of a factor path (`str(fp)`): segments joined by dots. -/
def fpStr (fp : FP) : Tok := joinSep '.' fp

/-- Parse of a factor path from its string form (`types.factor@s`). -/
def fpParse (s : Tok) : FP := splitP (fun c => c == '.') s

theorem splitP_ne_nil (p : Char → Bool) (s : List Char) : splitP p s ≠ [] := by
  cases s with
  | nil => simp [splitP]
  | cons a as =>
    simp only [splitP]
    cases splitP p as with
    | nil => simp
    | cons t ts => dsimp only; split <;> simp

theorem splitP_of_clean (p : Char → Bool) (t : List Char)
    (h : ∀ c ∈ t, p c = false) : splitP p t = [t] := by
  induction t with
  | nil => rfl
  | cons a as ih =>
    have ha : p a = false := h a (List.mem_cons_self a as)
    have has : ∀ c ∈ as, p c = false := fun c hc => h c (List.mem_cons_of_mem a hc)
    simp only [splitP, ih has, ha]
    simp

theorem splitP_append_sep (p : Char → Bool) (t s : List Char) (d : Char)
    (ht : ∀ c ∈ t, p c = false) (hd : p d = true) :
    splitP p (t ++ d :: s) = t :: splitP p s := by
  induction t with
  | nil =>
    simp only [List.nil_append, splitP]
    rcases h : splitP p s with _ | ⟨u, us⟩
    · exact absurd h (splitP_ne_nil p s)
    · simp [hd]
  | cons a as ih =>
    have ha : p a = false := ht a (List.mem_cons_self a as)
    have has : ∀ c ∈ as, p c = false := fun c hc => ht c (List.mem_cons_of_mem a hc)
    have step : splitP p (a :: (as ++ d :: s)) =
        match splitP p (as ++ d :: s) with
        | [] => [[]]
        | t :: ts => if p a then [] :: t :: ts else (a :: t) :: ts := rfl
    rw [List.cons_append, step, ih has, ha]
    simp

theorem splitP_joinSep (p : Char → Bool) (d : Char) (toks : List (List Char))
    (hne : toks ≠ [])
    (hclean : ∀ t ∈ toks, ∀ c ∈ t, p c = false) (hd : p d = true) :
    splitP p (joinSep d toks) = toks := by
  induction toks with
  | nil => exact absurd rfl hne
  | cons t ts ih =>
    cases ts with
    | nil =>
      exact splitP_of_clean p t (hclean t (List.mem_cons_self t []))
    | cons u us =>
      have h1 : ∀ c ∈ t, p c = false := hclean t (List.mem_cons_self t (u :: us))
      have h2 : ∀ x ∈ u :: us, ∀ c ∈ x, p c = false :=
        fun x hx => hclean x (List.mem_cons_of_mem t hx)
      have : joinSep d (t :: u :: us) = t ++ d :: joinSep d (u :: us) := rfl
      rw [this, splitP_append_sep p t _ d h1 hd, ih (by simp) h2]

theorem splitP_joinSep_append (p : Char → Bool) (d : Char)
    (toks : List (List Char)) (u : List Char) (hne : toks ≠ [])
    (hclean : ∀ t ∈ toks, ∀ c ∈ t, p c = false) (hd : p d = true) :
    splitP p (joinSep d toks ++ d :: u) = toks ++ splitP p u := by
  induction toks with
  | nil => exact absurd rfl hne
  | cons t ts ih =>
    cases ts with
    | nil =>
      have h1 : ∀ c ∈ t, p c = false := hclean t (List.mem_cons_self t [])
      simpa [joinSep] using splitP_append_sep p t u d h1 hd
    | cons v vs =>
      have h1 : ∀ c ∈ t, p c = false := hclean t (List.mem_cons_self t (v :: vs))
      have h2 : ∀ x ∈ v :: vs, ∀ c ∈ x, p c = false :=
        fun x hx => hclean x (List.mem_cons_of_mem t hx)
      have hj : joinSep d (t :: v :: vs) = t ++ d :: joinSep d (v :: vs) := rfl
      calc splitP p (joinSep d (t :: v :: vs) ++ d :: u)
          = splitP p (t ++ d :: (joinSep d (v :: vs) ++ d :: u)) := by
            rw [hj]; simp
        _ = t :: splitP p (joinSep d (v :: vs) ++ d :: u) :=
            splitP_append_sep p t _ d h1 hd
        _ = t :: ((v :: vs) ++ splitP p u) := by rw [ih (by simp) h2]
        _ = (t :: v :: vs) ++ splitP p u := rfl

theorem pysplit_joinSep (d : Char) (toks : List (List Char))
    (hclean : ∀ t ∈ toks, t ≠ [] ∧ ∀ c ∈ t, isWs c = false) (hd : isWs d = true) :
    pysplit (joinSep d toks) = toks := by
  cases toks with
  | nil => simp [pysplit, joinSep, splitP]
  | cons t ts =>
    unfold pysplit
    rw [splitP_joinSep isWs d (t :: ts) (by simp)
      (fun x hx => (hclean x hx).2) hd]
    rw [List.filter_eq_self.mpr]
    intro a ha
    have := (hclean a ha).1
    simpa using this

theorem wfSeg_parts {s : Tok} (h : wfSeg s = true) :
    ¬s = [] ∧ ∀ c ∈ s, isWs c = false ∧ ¬c = '.' := by
  simpa [wfSeg] using h

theorem wfSeg_no_dot {s : Tok} (h : wfSeg s = true) :
    ∀ c ∈ s, (c == '.') = false := by
  intro c hc
  simp [((wfSeg_parts h).2 c hc).2]

theorem wfSeg_no_ws {s : Tok} (h : wfSeg s = true) :
    ∀ c ∈ s, isWs c = false := fun c hc => ((wfSeg_parts h).2 c hc).1

theorem wfFP_parts {fp : FP} (h : wfFP fp = true) :
    ¬fp = [] ∧ ∀ s ∈ fp, wfSeg s = true := by
  simpa [wfFP] using h

theorem wfFP_segs {fp : FP} (h : wfFP fp = true) : ∀ s ∈ fp, wfSeg s = true :=
  (wfFP_parts h).2

theorem wfFP_ne_nil {fp : FP} (h : wfFP fp = true) : fp ≠ [] :=
  (wfFP_parts h).1

/-- Parsing the string form of a well-formed path recovers the path: the
external path primitive's round-trip contract, realized by the model. -/
theorem fpParse_fpStr {fp : FP} (h : wfFP fp = true) : fpParse (fpStr fp) = fp := by
  refine splitP_joinSep _ '.' fp (wfFP_ne_nil h) ?_ (by simp)
  intro t ht c hc
  exact wfSeg_no_dot (wfFP_segs h t ht) c hc

theorem mem_joinSep {d : Char} {toks : List (List Char)} {c : Char}
    (h : c ∈ joinSep d toks) : c = d ∨ ∃ t ∈ toks, c ∈ t := by
  induction toks with
  | nil => simp [joinSep] at h
  | cons t ts ih =>
    cases ts with
    | nil =>
      right
      exact ⟨t, List.mem_cons_self t [], by simpa [joinSep] using h⟩
    | cons u us =>
      have hj : joinSep d (t :: u :: us) = t ++ d :: joinSep d (u :: us) := rfl
      rw [hj] at h
      rcases List.mem_append.mp h with h1 | h1
      · exact Or.inr ⟨t, List.mem_cons_self t _, h1⟩
      · rcases List.mem_cons.mp h1 with h2 | h2
        · exact Or.inl h2
        · rcases ih h2 with h3 | ⟨x, hx, h3⟩
          · exact Or.inl h3
          · exact Or.inr ⟨x, List.mem_cons_of_mem t hx, h3⟩

theorem joinSep_ne_nil {d : Char} {toks : List (List Char)}
    (hne : toks ≠ []) (hh : ∀ t ∈ toks, t ≠ []) : joinSep d toks ≠ [] := by
  cases toks with
  | nil => exact absurd rfl hne
  | cons t ts =>
    cases ts with
    | nil =>
      simpa [joinSep] using hh t (List.mem_cons_self t [])
    | cons u us =>
      have hj : joinSep d (t :: u :: us) = t ++ d :: joinSep d (u :: us) := rfl
      rw [hj]
      intro hcontra
      rcases List.append_eq_nil.mp hcontra with ⟨_, h2⟩
      simp at h2

/-- The string form of a well-formed path is a well-formed index token. -/
theorem wfTok_fpStr {fp : FP} (h : wfFP fp = true) : wfTok (fpStr fp) = true := by
  have hne : fpStr fp ≠ [] :=
    joinSep_ne_nil (wfFP_ne_nil h) (fun t ht => by
      intro hnil
      have := wfFP_segs h t ht
      rw [hnil] at this
      simp [wfSeg] at this)
  have hclean : ∀ c ∈ fpStr fp, isWs c = false := by
    intro c hc
    rcases mem_joinSep hc with rfl | ⟨t, ht, hct⟩
    · simp [isWs]
    · exact wfSeg_no_ws (wfFP_segs h t ht) c hct
  simp only [wfTok, Bool.and_eq_true, List.all_eq_true]
  constructor
  · simpa using hne
  · intro c hc
    simpa using hclean c hc

theorem joinSep_append (d : Char) (a b : List (List Char))
    (ha : a ≠ []) (hb : b ≠ []) :
    joinSep d (a ++ b) = joinSep d a ++ d :: joinSep d b := by
  induction a with
  | nil => exact absurd rfl ha
  | cons t ts ih =>
    cases ts with
    | nil =>
      cases b with
      | nil => exact absurd rfl hb
      | cons u us => rfl
    | cons v vs =>
      have h1 : joinSep d ((t :: v :: vs) ++ b) = t ++ d :: joinSep d ((v :: vs) ++ b) := by
        cases b <;> rfl
      have h2 : joinSep d (t :: v :: vs) = t ++ d :: joinSep d (v :: vs) := rfl
      rw [h1, ih (by simp), h2]
      simp

/-- Segment-boundary prefix-extension test at the string level: the dotted
string of `a` followed by a separating dot leads `b`'s string exactly when
`b` strictly extends `a` by whole segments. -/
theorem sepExtension_iff {a b : FP} (hwa : wfFP a = true) (hwb : wfFP b = true) :
    (fpStr a ++ ['.']).isPrefixOf (fpStr b) = true ↔ ∃ r, r ≠ [] ∧ b = a ++ r := by
  constructor
  · intro h
    rcases List.isPrefixOf_iff_prefix.mp h with ⟨u, hu⟩
    have hsplit : splitP (fun c => c == '.') (fpStr b) =
        a ++ splitP (fun c => c == '.') u := by
      rw [← hu, List.append_assoc, List.singleton_append]
      exact splitP_joinSep_append _ '.' a u (wfFP_ne_nil hwa)
        (fun t ht c hc => wfSeg_no_dot (wfFP_segs hwa t ht) c hc) (by simp)
    have hb : b = a ++ splitP (fun c => c == '.') u := by
      have := fpParse_fpStr hwb
      rw [fpParse] at this
      rw [← this, hsplit]
    exact ⟨splitP (fun c => c == '.') u, splitP_ne_nil _ u, hb⟩
  · rintro ⟨r, hr, rfl⟩
    have hra : a ≠ [] := wfFP_ne_nil hwa
    simp only [fpStr]
    rw [joinSep_append '.' a r hra hr]
    apply List.isPrefixOf_iff_prefix.mpr
    exact ⟨joinSep '.' r, by simp⟩

/-! ### Association lists: the model of Python dictionaries. -/

/-- Dictionary lookup `d.get(k)` / `d[k]`. -/
def lookupA {κ ν : Type} [DecidableEq κ] : List (κ × ν) → κ → Option ν
  | [], _ => none
  | e :: l, k => if e.1 = k then some e.2 else lookupA l k

/-- Dictionary membership `k in d`. -/
def containsK {κ ν : Type} [DecidableEq κ] (l : List (κ × ν)) (k : κ) : Bool :=
  (lookupA l k).isSome

/-- Dictionary assignment `d[k] = v`: replace in place, else append
(Python dicts keep the first-insertion position of a key). -/
def insertA {κ ν : Type} [DecidableEq κ] : List (κ × ν) → κ → ν → List (κ × ν)
  | [], k, v => [(k, v)]
  | e :: l, k, v => if e.1 = k then (k, v) :: l else e :: insertA l k v

/-- `dict(pairs)`: left-to-right insertion of the pairs. -/
def dictOf {κ ν : Type} [DecidableEq κ] (l : List (κ × ν)) : List (κ × ν) :=
  l.foldl (fun d e => insertA d e.1 e.2) []

theorem lookupA_insertA_self {κ ν : Type} [DecidableEq κ]
    (l : List (κ × ν)) (k : κ) (v : ν) : lookupA (insertA l k v) k = some v := by
  induction l with
  | nil => simp [insertA, lookupA]
  | cons e l ih =>
    by_cases h : e.1 = k
    · simp [insertA, h, lookupA]
    · simp [insertA, h, lookupA, ih]

theorem lookupA_insertA_ne {κ ν : Type} [DecidableEq κ]
    (l : List (κ × ν)) (k k' : κ) (v : ν) (hne : k ≠ k') :
    lookupA (insertA l k' v) k = lookupA l k := by
  have h' : k' ≠ k := Ne.symm hne
  induction l with
  | nil => simp [insertA, lookupA, h']
  | cons e l ih =>
    by_cases h : e.1 = k'
    · have hek : e.1 ≠ k := by rw [h]; exact h'
      simp [insertA, h, lookupA, hek, h']
    · by_cases h2 : e.1 = k
      · simp [insertA, h, lookupA, h2, hne]
      · simp [insertA, h, lookupA, h2, ih]

theorem insertA_of_not_mem {κ ν : Type} [DecidableEq κ]
    (l : List (κ × ν)) (k : κ) (v : ν) (h : ∀ e ∈ l, e.1 ≠ k) :
    insertA l k v = l ++ [(k, v)] := by
  induction l with
  | nil => rfl
  | cons e l ih =>
    have he : e.1 ≠ k := h e (List.mem_cons_self e l)
    simp [insertA, he, ih (fun x hx => h x (List.mem_cons_of_mem e hx))]

theorem dictOf_eq_self {κ ν : Type} [DecidableEq κ] (l : List (κ × ν))
    (h : l.Pairwise (fun a b => a.1 ≠ b.1)) : dictOf l = l := by
  suffices hgen : ∀ (acc : List (κ × ν)),
      (∀ e ∈ l, ∀ x ∈ acc, x.1 ≠ e.1) → l.Pairwise (fun a b => a.1 ≠ b.1) →
      l.foldl (fun d e => insertA d e.1 e.2) acc = acc ++ l by
    simpa [dictOf] using hgen [] (by simp) h
  intro acc hdisj hpw
  clear h
  induction l generalizing acc with
  | nil => simp
  | cons e l ih =>
    rcases List.pairwise_cons.mp hpw with ⟨hel, hl⟩
    have step : insertA acc e.1 e.2 = acc ++ [e] := by
      have := insertA_of_not_mem acc e.1 e.2
        (fun x hx => hdisj e (List.mem_cons_self e l) x hx)
      simpa using this
    have hdisj' : ∀ x ∈ l, ∀ y ∈ acc ++ [e], y.1 ≠ x.1 := by
      intro x hx y hy
      rcases List.mem_append.mp hy with h1 | h1
      · exact hdisj x (List.mem_cons_of_mem e hx) y h1
      · rcases List.mem_singleton.mp h1 with rfl
        exact hel x hx
    calc (e :: l).foldl (fun d e => insertA d e.1 e.2) acc
        = l.foldl (fun d e => insertA d e.1 e.2) (insertA acc e.1 e.2) := rfl
      _ = (acc ++ [e]) ++ l := by rw [step]; exact ih _ hdisj' hl
      _ = acc ++ e :: l := by simp

theorem mem_keys_insertA {κ ν : Type} [DecidableEq κ]
    {l : List (κ × ν)} {k : κ} {v : ν} {x : κ × ν}
    (h : x ∈ insertA l k v) : x ∈ l ∨ x.1 = k := by
  induction l with
  | nil =>
    rcases List.mem_singleton.mp (by simpa [insertA] using h) with rfl
    exact Or.inr rfl
  | cons e l ih =>
    by_cases he : e.1 = k
    · rw [insertA, if_pos he] at h
      rcases List.mem_cons.mp h with rfl | h1
      · exact Or.inr rfl
      · exact Or.inl (List.mem_cons_of_mem e h1)
    · rw [insertA, if_neg he] at h
      rcases List.mem_cons.mp h with rfl | h1
      · exact Or.inl (List.mem_cons_self x l)
      · rcases ih h1 with h2 | h2
        · exact Or.inl (List.mem_cons_of_mem e h2)
        · exact Or.inr h2

theorem pairwise_insertA {κ ν : Type} [DecidableEq κ]
    {l : List (κ × ν)} (k : κ) (v : ν)
    (h : l.Pairwise (fun a b => a.1 ≠ b.1)) :
    (insertA l k v).Pairwise (fun a b => a.1 ≠ b.1) := by
  induction l with
  | nil => simp [insertA]
  | cons e l ih =>
    rcases List.pairwise_cons.mp h with ⟨hel, hl⟩
    by_cases he : e.1 = k
    · rw [insertA, if_pos he]
      exact List.pairwise_cons.mpr ⟨fun x hx => by
        have := hel x hx
        rw [he] at this
        simpa using this, hl⟩
    · rw [insertA, if_neg he]
      refine List.pairwise_cons.mpr ⟨?_, ih hl⟩
      intro x hx
      rcases mem_keys_insertA hx with h1 | h1
      · exact hel x h1
      · rw [h1]
        simpa using he

theorem dictOf_pairwise {κ ν : Type} [DecidableEq κ] (l : List (κ × ν)) :
    (dictOf l).Pairwise (fun a b => a.1 ≠ b.1) := by
  suffices hgen : ∀ (acc : List (κ × ν)),
      acc.Pairwise (fun a b => a.1 ≠ b.1) →
      (l.foldl (fun d e => insertA d e.1 e.2) acc).Pairwise (fun a b => a.1 ≠ b.1) by
    simpa [dictOf] using hgen [] (by simp)
  induction l with
  | nil => intro acc hacc; simpa using hacc
  | cons e l ih =>
    intro acc hacc
    exact ih (insertA acc e.1 e.2) (pairwise_insertA e.1 e.2 hacc)

/-! ### Product: index tables, persistence and path splitting. -/

/-- A `projects` entry value: factor path plus the remaining opaque
fields (protocol identifier first, extra fields preserved after). -/
abbrev ProjVal := FP × List Tok

/-- The four in-memory tables of `Product`, plus its `route` and scan
`limit` (`local` is renamed `localTable`: `local` is reserved in Lean). -/
structure ProductTables where
  route : Tok
  limit : Nat
  projects : List (Tok × ProjVal)
  localTable : List (FP × (Tok × List Tok))
  contexts : List FP
  roots : List FP
deriving Repr, DecidableEq

/-- The three persisted index files of a product; `none` models an
absent file.  `PROJECTS` and `CONTEXTS` are kept as lines (the newline
delimiter of `writelines`/`readlines`), `ROOTS` as whole text. -/
structure ProductFiles where
  projectsFile : Option (List Tok)
  contextsFile : Option (List Tok)
  rootsFile : Option Tok
deriving Repr, DecidableEq

/-- `parse_project_index`: each line is stripped and whitespace-split;
field 0 is the identifier, field 1 the factor path, the rest opaque.
A line with fewer than two fields raises (IndexError) in the source;
here that propagates as an error. -/
def parseProjectIndex : List Tok → Except String (List (Tok × ProjVal))
  | [] => .ok []
  | l :: ls =>
    match pysplit (pyStrip l) with
    | a :: b :: rest =>
      match parseProjectIndex ls with
      | .ok tl => .ok ((a, (fpParse b, rest)) :: tl)
      | .error e => .error e
    | _ => .error "malformed project index line"

/-- Python `set(iterable)` as a first-occurrence-kept list. -/
def pySet {α : Type} [DecidableEq α] : List α → List α
  | [] => []
  | a :: l => a :: (pySet l).filter (fun b => b != a)

/-- The comprehension `{v[0]: (k,) + v[1:] for k, v in prj.items()}`
shared by `load` and `update`. -/
def deriveLocal (prj : List (Tok × ProjVal)) : List (FP × (Tok × List Tok)) :=
  dictOf (prj.map (fun e => (e.2.1, (e.1, e.2.2))))

/-- `Product.load` reading the three index files in order (PROJECTS,
CONTEXTS, ROOTS); any read or parse failure propagates before the four
tables are assigned.  (Context/root parsing is total in the model, so
hoisting it below the reads is behaviour-preserving.) -/
def loadTables (pd : ProductTables) (F : ProductFiles) : Except String ProductTables :=
  match F.projectsFile with
  | none => .error "file not found"
  | some plines =>
    match parseProjectIndex plines with
    | .error e => .error e
    | .ok prjPairs =>
      match F.contextsFile with
      | none => .error "file not found"
      | some clines =>
        match F.rootsFile with
        | none => .error "file not found"
        | some rtext =>
          let prj := dictOf prjPairs
          let ctx := pySet (clines.map (fun l => fpParse (pyStrip l)))
          let rts := pySet ((pysplit rtext).map fpParse)
          .ok { pd with
            projects := prj, contexts := ctx,
            localTable := deriveLocal prj, roots := rts }

/-- `Product.load` as the Python call behaves on the instance: on any
failure the exception propagates and the four tables keep their prior
values (all assignments happen after the three reads). -/
def pdLoad (pd : ProductTables) (F : ProductFiles) : ProductTables × Option String :=
  match loadTables pd F with
  | .ok pd' => (pd', none)
  | .error e => (pd, some e)

/-- One `PROJECTS` line: `' '.join` of identifier, path string and the
remaining fields. -/
def projLine (e : Tok × ProjVal) : Tok := joinSep ' ' (e.1 :: fpStr e.2.1 :: e.2.2)

/-- `Product.store`.  `SortKey = itemgetter(0)`: the projects sequence is
sorted by identifier, while the contexts are sorted by their FIRST
SEGMENT (`itemgetter(0)` indexes the path, not its string form); roots
are sorted by the paths' natural (segment-lexicographic) order. -/
def pdStore (pd : ProductTables) : ProductFiles :=
  { projectsFile :=
      some ((pd.projects.insertionSort (fun a b => a.1 ≤ b.1)).map projLine),
    contextsFile :=
      some ((pd.contexts.insertionSort (fun a b => a.headD [] ≤ b.headD [])).map fpStr),
    rootsFile :=
      some (joinSep '\n' ((pd.roots.insertionSort (fun a b => a ≤ b)).map fpStr)) }

/-- `Product.split`: exact registered path, else the first registered
path whose dotted string extended by `'.'` leads the query's string;
`None` (here `none`) when nothing matches. -/
def productSplit (pd : ProductTables) (fp : FP) : Option (FP × FP) :=
  if containsK pd.localTable fp then some (fp, [])
  else
    match pd.localTable.find? (fun e => (fpStr e.1 ++ ['.']).isPrefixOf (fpStr fp)) with
    | some e => some (e.1, fpParse ((fpStr fp).drop ((fpStr e.1).length + 1)))
    | none => none

/-- The module-level protocol registry (`protocols`). -/
def protocolsReg : List (Tok × Tok) :=
  [("factors/polynomial-1".toList, "polynomial.V1".toList)]

/-- `import_protocol`: registry lookup; an unknown identifier raises. -/
def importProtocol (id : Tok) : Except String Tok :=
  match lookupA protocolsReg id with
  | some cls => Except.ok cls
  | none => Except.error "unknown protocol"

/-- `Product.identifier_by_factor`: destructures the `local` entry as
exactly `(identifier, protocolId)` and resolves the protocol. -/
def identifierByFactor (pd : ProductTables) (fp : FP) : Except String (Tok × Tok) :=
  match lookupA pd.localTable fp with
  | none => Except.error "no such factor"
  | some (ids, rest) =>
    match rest with
    | [proto] =>
      match importProtocol proto with
      | .ok _cls => Except.ok (ids, proto)
      | .error e => Except.error e
    | _ => Except.error "local entry does not unpack"

/-! ### The directory scanner (`scan_product_directory`).

The filesystem is a tree of directories; each carries the two
classification facts the scanner queries through its callbacks:
`iscontext` (the route has a `context` subdirectory with a marker) and
`read_protocol` (the parsed, nonempty marker fields, or none). -/

inductive Dir where
  | node : Tok → Bool → Option (Tok × List Tok) → List Dir → Dir

def Dir.name : Dir → Tok
  | .node n _ _ _ => n

def Dir.isctx : Dir → Bool
  | .node _ b _ _ => b

def Dir.proto : Dir → Option (Tok × List Tok)
  | .node _ _ p _ => p

def Dir.children : Dir → List Dir
  | .node _ _ _ cs => cs

mutual
def dirSize : Dir → Nat
  | .node _ _ _ cs => 1 + dirListSize cs
def dirListSize : List Dir → Nat
  | [] => 0
  | d :: ds => dirSize d + dirListSize ds
end

theorem dirSize_eq (d : Dir) : dirSize d = 1 + dirListSize d.children := by
  cases d; rfl

/-- One entry of the scanner's lazy sequence. -/
inductive ScanEntry where
  | root (fp : FP)
  | ctx (fp : FP)
  | project (id : Tok) (fp : FP) (extra : List Tok)
deriving Repr, DecidableEq

def scanLimitMsg : String := "filesystem scan limit exceeded"

def hasDot (t : Tok) : Bool := t.contains '.'

/-- The per-directory loop body shared by the top-level discovery pass
(`top = true`, with `root` emissions) and the breadth-first descent:
the counter increments for EVERY enumerated subdirectory (before the
dotted-name filter), and exceeding the limit raises. -/
def childStep (limit : Nat) (top : Bool) (base : FP) :
    List Dir → Nat → Except String (List ScanEntry × List (FP × Dir) × Nat)
  | [], i => .ok ([], [], i)
  | d :: ds, i =>
    if i + 1 > limit then .error scanLimitMsg
    else if hasDot d.name then childStep limit top base ds (i + 1)
    else
      let fp := base ++ [d.name]
      if d.isctx then
        match childStep limit top base ds (i + 1) with
        | .error e => .error e
        | .ok (es, q, i') =>
          .ok ((if top then [.root fp, .ctx fp] else [.ctx fp]) ++ es, (fp, d) :: q, i')
      else
        match d.proto with
        | some (p0, pr) =>
          match childStep limit top base ds (i + 1) with
          | .error e => .error e
          | .ok (es, q, i') =>
            .ok ((if top then [.root fp, .project p0 fp pr] else [.project p0 fp pr]) ++ es, q, i')
        | none => childStep limit top base ds (i + 1)

def queueSize : List (FP × Dir) → Nat
  | [] => 0
  | (_, d) :: q => dirSize d + queueSize q

theorem queueSize_append (a b : List (FP × Dir)) :
    queueSize (a ++ b) = queueSize a + queueSize b := by
  induction a with
  | nil => simp [queueSize]
  | cons e a ih =>
    obtain ⟨fp, d⟩ := e
    simp [queueSize, ih]
    omega

theorem childStep_queue_le (limit : Nat) (top : Bool) (base : FP) :
    ∀ (ds : List Dir) (i : Nat) es q i',
    childStep limit top base ds i = .ok (es, q, i') → queueSize q ≤ dirListSize ds := by
  intro ds
  induction ds with
  | nil =>
    intro i es q i' h
    simp only [childStep] at h
    cases h
    simp [queueSize]
  | cons d ds ih =>
    intro i es q i' h
    simp only [childStep] at h
    split at h
    · exact absurd h (by simp)
    · split at h
      · have := ih _ _ _ _ h
        have hpos : 0 < dirSize d := by rw [dirSize_eq]; omega
        simp [dirListSize]
        omega
      · split at h
        · rcases hcs : childStep limit top base ds (i + 1) with e | ⟨es2, q2, i2⟩
          · rw [hcs] at h; exact absurd h (by simp)
          · rw [hcs] at h
            cases h
            have := ih _ _ _ _ hcs
            simp [queueSize, dirListSize, dirSize_eq d]
            omega
        · rcases hp : d.proto with _ | ⟨p0, pr⟩
          · rw [hp] at h
            have := ih _ _ _ _ h
            simp [dirListSize]
            omega
          · rw [hp] at h
            rcases hcs : childStep limit top base ds (i + 1) with e | ⟨es2, q2, i2⟩
            · rw [hcs] at h; exact absurd h (by simp)
            · rw [hcs] at h
              cases h
              have := ih _ _ _ _ hcs
              simp [dirListSize]
              omega

/-- The queue additions a breadth-first step makes: the no-dot context
subdirectories, paired with their paths. -/
def ctxAdds (base : FP) : List Dir → List (FP × Dir)
  | [] => []
  | d :: ds =>
    if hasDot d.name then ctxAdds base ds
    else if d.isctx then (base ++ [d.name], d) :: ctxAdds base ds
    else ctxAdds base ds

theorem ctxAdds_size_le (base : FP) (ds : List Dir) :
    queueSize (ctxAdds base ds) ≤ dirListSize ds := by
  induction ds with
  | nil => simp [ctxAdds, queueSize, dirListSize]
  | cons d ds ih =>
    have hpos : 0 < dirSize d := by rw [dirSize_eq]; omega
    simp only [ctxAdds]
    split
    · simp [dirListSize]; omega
    · split
      · simp [queueSize, dirListSize]; omega
      · simp [dirListSize]; omega

/-- The breadth-first walk over the queued context directories (the
`while stack` loop), threading the shared counter. -/
def bfsScan (limit : Nat) : List (FP × Dir) → Nat → Except String (List ScanEntry × Nat)
  | [], i => .ok ([], i)
  | (fp, d) :: rest, i =>
    match h : childStep limit false fp d.children i with
    | .error e => .error e
    | .ok (es, q, i') =>
      match bfsScan limit (rest ++ q) i' with
      | .error e => .error e
      | .ok (es', i'') => .ok (es ++ es', i'')
termination_by queue _ => queueSize queue
decreasing_by
  have hle := childStep_queue_le limit false fp d.children i es q i' h
  rw [queueSize_append]
  have : queueSize ((fp, d) :: rest) = dirSize d + queueSize rest := rfl
  rw [this, dirSize_eq]
  omega

/-- The counter value a full (unbounded) walk of the queue reaches. -/
def walkCount : List (FP × Dir) → Nat → Nat
  | [], i => i
  | (fp, d) :: rest, i => walkCount (rest ++ ctxAdds fp d.children) (i + d.children.length)
termination_by queue _ => queueSize queue
decreasing_by
  have hle := ctxAdds_size_le fp d.children
  rw [queueSize_append]
  have : queueSize ((fp, d) :: rest) = dirSize d + queueSize rest := rfl
  rw [this, dirSize_eq]
  omega

/-- Route descent `route // fp` through the tree. -/
def descend : Dir → FP → Option Dir
  | d, [] => some d
  | d, s :: rest =>
    match d.children.find? (fun c => c.name == s) with
    | some c => descend c rest
    | none => none

/-- The explicit-roots special case: each root is emitted as `root` and
classified once, with NO counter activity; contexts are queued. -/
def rootsPhase (tree : Dir) : List FP → List ScanEntry × List (FP × Dir)
  | [] => ([], [])
  | fp :: rest =>
    let (es, q) := rootsPhase tree rest
    match descend tree fp with
    | some d =>
      if d.isctx then (.root fp :: .ctx fp :: es, (fp, d) :: q)
      else
        match d.proto with
        | some (p0, pr) => (.root fp :: .project p0 fp pr :: es, q)
        | none => (.root fp :: es, q)
    | none => (.root fp :: es, q)

/-- `scan_product_directory`: the whole generator, run to a list (or the
scan-limit error), together with the final counter value. -/
def scanRun (tree : Dir) (roots : List FP) (limit : Nat) :
    Except String (List ScanEntry × Nat) :=
  if roots.isEmpty then
    match childStep limit true [] tree.children 0 with
    | .error e => .error e
    | .ok (es, q, i) =>
      match bfsScan limit q i with
      | .error e => .error e
      | .ok (es', i') => .ok (es ++ es', i')
  else
    let (es, q) := rootsPhase tree roots
    match bfsScan limit q 0 with
    | .error e => .error e
    | .ok (es', i') => .ok (es ++ es', i')

/-- The number of subdirectory inspections a full scan performs (the
counter value an unbounded run would reach). -/
def inspCount (tree : Dir) (roots : List FP) : Nat :=
  if roots.isEmpty then walkCount [([], tree)] 0
  else walkCount (rootsPhase tree roots).2 0

/-- `Product.update`: drives the scanner with the current `roots` as
seeds, then rebuilds the four tables; a scan failure propagates before
any table is assigned, leaving the product unchanged. -/
def pdUpdate (pd : ProductTables) (tree : Dir) : ProductTables × Option String :=
  match scanRun tree pd.roots pd.limit with
  | .error e => (pd, some e)
  | .ok (es, _) =>
    let projPairs := es.filterMap (fun e => match e with
      | .project id fp extra => some (id, (fp, extra))
      | _ => none)
    let ctxList := es.filterMap (fun e => match e with
      | .ctx fp => some fp
      | _ => none)
    let rootList := es.filterMap (fun e => match e with
      | .root fp => some fp
      | _ => none)
    let prj := dictOf projPairs
    let pd' : ProductTables :=
      { pd with
        roots := pySet rootList
        contexts := pySet ctxList
        projects := prj
        localTable := deriveLocal prj }
    (pd', none)

theorem childStep_count (limit : Nat) (top : Bool) (base : FP) :
    ∀ (ds : List Dir) (i : Nat),
    (i + ds.length ≤ limit →
      ∃ es, childStep limit top base ds i = .ok (es, ctxAdds base ds, i + ds.length)) ∧
    (i ≤ limit → i + ds.length > limit →
      childStep limit top base ds i = .error scanLimitMsg) := by
  intro ds
  induction ds with
  | nil =>
    intro i
    refine ⟨fun _ => ⟨[], by simp [childStep, ctxAdds]⟩, fun h1 h2 => ?_⟩
    simp only [List.length_nil] at h2
    omega
  | cons d ds ih =>
    intro i
    have hlen : (d :: ds).length = ds.length + 1 := by simp
    by_cases hlim : i + 1 > limit
    · refine ⟨fun hcon => ?_, fun _ _ => ?_⟩
      · rw [hlen] at hcon; omega
      · simp [childStep, hlim]
    · have hstep := ih (i + 1)
      constructor
      · intro hle
        rw [hlen] at hle
        have harith : i + 1 + ds.length ≤ limit := by omega
        rcases hstep.1 harith with ⟨es, hes⟩
        have hcnt : i + (d :: ds).length = i + 1 + ds.length := by rw [hlen]; omega
        rw [hcnt]
        by_cases hd : hasDot d.name
        · refine ⟨es, ?_⟩
          have hca : ctxAdds base (d :: ds) = ctxAdds base ds := by
            simp [ctxAdds, hd]
          rw [hca]
          simp only [childStep, if_neg hlim, hd, if_true]
          exact hes
        · by_cases hc : d.isctx
          · refine ⟨(if top then [.root (base ++ [d.name]), .ctx (base ++ [d.name])]
              else [.ctx (base ++ [d.name])]) ++ es, ?_⟩
            have hca : ctxAdds base (d :: ds) =
                (base ++ [d.name], d) :: ctxAdds base ds := by
              simp [ctxAdds, hd, hc]
            rw [hca]
            simp only [childStep, if_neg hlim, hd, Bool.false_eq_true, if_false, hc,
              if_true, hes]
          · rcases hp : d.proto with _ | ⟨p0, pr⟩
            · refine ⟨es, ?_⟩
              have hca : ctxAdds base (d :: ds) = ctxAdds base ds := by
                simp [ctxAdds, hd, hc]
              rw [hca]
              simp only [childStep, if_neg hlim, hd, Bool.false_eq_true, if_false, hc,
                hp]
              exact hes
            · refine ⟨(if top then [.root (base ++ [d.name]),
                .project p0 (base ++ [d.name]) pr]
                else [.project p0 (base ++ [d.name]) pr]) ++ es, ?_⟩
              have hca : ctxAdds base (d :: ds) = ctxAdds base ds := by
                simp [ctxAdds, hd, hc]
              rw [hca]
              simp only [childStep, if_neg hlim, hd, Bool.false_eq_true, if_false, hc,
                hp, hes]
      · intro hle hgt
        rw [hlen] at hgt
        have herr := hstep.2 (by omega) (by omega)
        by_cases hd : hasDot d.name
        · simp only [childStep, if_neg hlim, hd, if_true]
          exact herr
        · by_cases hc : d.isctx
          · simp only [childStep, if_neg hlim, hd, Bool.false_eq_true, if_false, hc,
              if_true, herr]
          · rcases hp : d.proto with _ | ⟨p0, pr⟩
            · simp only [childStep, if_neg hlim, hd, Bool.false_eq_true, if_false, hc,
                hp]
              exact herr
            · simp only [childStep, if_neg hlim, hd, Bool.false_eq_true, if_false, hc,
                hp, herr]

theorem bfsScan_cons_ok {limit : Nat} {fp : FP} {d : Dir} {rest : List (FP × Dir)}
    {i : Nat} {es : List ScanEntry} {q : List (FP × Dir)} {i' : Nat}
    (h : childStep limit false fp d.children i = .ok (es, q, i')) :
    bfsScan limit ((fp, d) :: rest) i =
      match bfsScan limit (rest ++ q) i' with
      | .error e => .error e
      | .ok (es', i'') => .ok (es ++ es', i'') := by
  rw [bfsScan]
  split
  · next e heq =>
    rw [h] at heq
    simp at heq
  · next es1 q1 i1 heq =>
    rw [h] at heq
    simp only [Except.ok.injEq, Prod.mk.injEq] at heq
    obtain ⟨rfl, rfl, rfl⟩ := heq
    rfl

theorem bfsScan_cons_err {limit : Nat} {fp : FP} {d : Dir} {rest : List (FP × Dir)}
    {i : Nat} {e : String}
    (h : childStep limit false fp d.children i = .error e) :
    bfsScan limit ((fp, d) :: rest) i = .error e := by
  rw [bfsScan]
  split
  · next e' heq =>
    rw [h] at heq
    simp only [Except.error.injEq] at heq
    rw [heq]
  · next es1 q1 i1 heq =>
    rw [h] at heq
    simp at heq

theorem walkCount_ge :
    ∀ (n : Nat) (queue : List (FP × Dir)) (i : Nat), queueSize queue ≤ n →
    i ≤ walkCount queue i := by
  intro n
  induction n using Nat.strong_induction_on with
  | _ n ihn =>
    intro queue i hq
    match queue with
    | [] => simp [walkCount]
    | (fp, d) :: rest =>
      have hlt : queueSize (rest ++ ctxAdds fp d.children) < queueSize ((fp, d) :: rest) := by
        have hle := ctxAdds_size_le fp d.children
        rw [queueSize_append]
        have hc : queueSize ((fp, d) :: rest) = dirSize d + queueSize rest := rfl
        rw [hc, dirSize_eq]
        omega
      have hrec := ihn (queueSize (rest ++ ctxAdds fp d.children))
        (by omega) (rest ++ ctxAdds fp d.children) (i + d.children.length) (le_refl _)
      calc i ≤ i + d.children.length := by omega
        _ ≤ walkCount (rest ++ ctxAdds fp d.children) (i + d.children.length) := hrec
        _ = walkCount ((fp, d) :: rest) i := by rw [walkCount]

theorem bfsScan_count (limit : Nat) :
    ∀ (n : Nat) (queue : List (FP × Dir)) (i : Nat), queueSize queue ≤ n → i ≤ limit →
    (walkCount queue i ≤ limit →
      ∃ es, bfsScan limit queue i = .ok (es, walkCount queue i)) ∧
    (walkCount queue i > limit → bfsScan limit queue i = .error scanLimitMsg) := by
  intro n
  induction n using Nat.strong_induction_on with
  | _ n ihn =>
    intro queue i hq hil
    match queue with
    | [] =>
      constructor
      · intro _
        exact ⟨[], by simp [bfsScan, walkCount]⟩
      · intro hcontra
        simp [walkCount] at hcontra
        omega
    | (fp, d) :: rest =>
      have hweq : walkCount ((fp, d) :: rest) i =
          walkCount (rest ++ ctxAdds fp d.children) (i + d.children.length) := by
        rw [walkCount]
      have hlt : queueSize (rest ++ ctxAdds fp d.children) < queueSize ((fp, d) :: rest) := by
        have hle := ctxAdds_size_le fp d.children
        rw [queueSize_append]
        have hc : queueSize ((fp, d) :: rest) = dirSize d + queueSize rest := rfl
        rw [hc, dirSize_eq]
        omega
      by_cases hcl : i + d.children.length ≤ limit
      · rcases (childStep_count limit false fp d.children i).1 hcl with ⟨es, hes⟩
        have hih := ihn (queueSize (rest ++ ctxAdds fp d.children)) (by omega)
          (rest ++ ctxAdds fp d.children) (i + d.children.length) (le_refl _) hcl
        constructor
        · intro hwle
          rw [hweq] at hwle
          rcases hih.1 hwle with ⟨es', hes'⟩
          refine ⟨es ++ es', ?_⟩
          rw [bfsScan_cons_ok hes, hweq, hes']
        · intro hwgt
          rw [hweq] at hwgt
          have hrec := hih.2 hwgt
          rw [bfsScan_cons_ok hes, hrec]
      · have herr := (childStep_count limit false fp d.children i).2 hil (by omega)
        have hge : i + d.children.length ≤ walkCount ((fp, d) :: rest) i := by
          rw [hweq]
          exact walkCount_ge _ _ _ (le_refl _)
        constructor
        · intro hwle
          omega
        · intro _
          exact bfsScan_cons_err herr

/-- A scan whose full walk would inspect more subdirectories than the
limit allows fails with the scan-limit error, never a partial result. -/
theorem scanRun_limit_exceeded (tree : Dir) (roots : List FP) (limit : Nat)
    (h : inspCount tree roots > limit) :
    scanRun tree roots limit = .error scanLimitMsg := by
  by_cases hr : roots.isEmpty
  · have hcount : inspCount tree roots =
        walkCount (ctxAdds [] tree.children) tree.children.length := by
      rw [inspCount, if_pos hr, walkCount]
      simp
    by_cases hcl : tree.children.length ≤ limit
    · rcases (childStep_count limit true [] tree.children 0).1 (by omega) with ⟨es, hes⟩
      have hgt : walkCount (ctxAdds [] tree.children) tree.children.length > limit := by
        rw [← hcount]
        exact h
      have hbfs := (bfsScan_count limit (queueSize (ctxAdds [] tree.children))
        (ctxAdds [] tree.children) tree.children.length (le_refl _) hcl).2 hgt
      rw [scanRun, if_pos hr]
      simp only [Nat.zero_add] at hes
      rw [hes]
      dsimp only
      rw [hbfs]
    · have herr := (childStep_count limit true [] tree.children 0).2 (by omega) (by omega)
      rw [scanRun, if_pos hr, herr]
  · have hcount : inspCount tree roots = walkCount (rootsPhase tree roots).2 0 := by
      rw [inspCount, if_neg hr]
    have hgt : walkCount (rootsPhase tree roots).2 0 > limit := by
      rw [← hcount]
      exact h
    have hbfs := (bfsScan_count limit (queueSize (rootsPhase tree roots).2)
      (rootsPhase tree roots).2 0 (le_refl _) (by omega)).2 hgt
    rw [scanRun, if_neg hr]
    rcases hrp : rootsPhase tree roots with ⟨es, q⟩
    rw [hrp] at hbfs
    simp only at hbfs
    simp only [hbfs]

/-- With explicit roots that are all non-contexts, the queue stays empty
and the scan finishes with the counter still at zero, for every limit. -/
theorem rootsPhase_no_ctx (tree : Dir) :
    ∀ (roots : List FP),
    (∀ fp ∈ roots, ∀ d, descend tree fp = some d → d.isctx = false) →
    (rootsPhase tree roots).2 = [] := by
  intro roots
  induction roots with
  | nil => intro _; rfl
  | cons fp rest ih =>
    intro hyp
    have hrest := ih (fun x hx => hyp x (List.mem_cons_of_mem fp hx))
    rw [rootsPhase]
    rcases hq : rootsPhase tree rest with ⟨es, q⟩
    rw [hq] at hrest
    simp only at hrest
    subst hrest
    rcases hdd : descend tree fp with _ | d
    · simp
    · have hnc : d.isctx = false := hyp fp (List.mem_cons_self fp rest) d hdd
      simp only [hnc, Bool.false_eq_true, if_false]
      rcases d.proto with _ | ⟨p0, pr⟩ <;> simp

/-! ### Context: instance cache, search path, resolution, inheritance. -/

/-- The `context` segment appended by `Project.itercontexts`. -/
def ctxSeg : Tok := "context".toList

/-- The nonempty prefixes of a path, nearest (longest) first: the
external `~path` ancestor iterator. -/
def ancestorsFP (fp : FP) : List FP :=
  ((fp.reverse.tails).map List.reverse).dropLast

/-- `Project.itercontexts`: the strict-ancestor chain of the project's
path (`~(factor ** 1)`), near to far, each with a `context` segment. -/
def projItercontexts (factor : FP) : List FP :=
  (ancestorsFP factor.dropLast).map (fun x => x ++ [ctxSeg])

/-- A cached `Project`: owning product, identifier, factor path and the
protocol identifier its configured instance was imported from. -/
structure ProjectM where
  product : ProductTables
  identifier : Tok
  factor : FP
  protoId : Tok
deriving Repr, DecidableEq

/-- A `Context`: the connection-ordered product sequence and the
`('project', id)` slots of the instance cache. -/
structure ContextM where
  productSeq : List ProductTables
  cache : List (Tok × ProjectM)
deriving Repr, DecidableEq

/-- One step of `Context.load`'s inner loop: destructure the entry value
as exactly `(factor, protocolId)`, import the protocol and assign the
cache slot. -/
def ctxLoadStep (pd : ProductTables) (c : List (Tok × ProjectM)) (e : Tok × ProjVal) :
    Except String (List (Tok × ProjectM)) :=
  match e.2.2 with
  | [protoId] =>
    match importProtocol protoId with
    | .ok _cls => .ok (insertA c e.1 ⟨pd, e.1, e.2.1, protoId⟩)
    | .error er => .error er
  | _ => .error "project entry does not unpack"

def ctxLoadList (pd : ProductTables) :
    List (Tok × ProjVal) → List (Tok × ProjectM) →
    Except String (List (Tok × ProjectM))
  | [], c => .ok c
  | e :: rest, c =>
    match ctxLoadStep pd c e with
    | .ok c' => ctxLoadList pd rest c'
    | .error er => .error er

def ctxLoadProduct (cache : List (Tok × ProjectM)) (pd : ProductTables) :
    Except String (List (Tok × ProjectM)) :=
  ctxLoadList pd pd.projects cache

def ctxLoadSeq : List ProductTables → List (Tok × ProjectM) →
    Except String (List (Tok × ProjectM))
  | [], c => .ok c
  | pd :: rest, c =>
    match ctxLoadProduct c pd with
    | .ok c' => ctxLoadSeq rest c'
    | .error e => .error e

/-- `Context.load`: populate the cache from all connected products, in
REVERSE connection order (so the earliest-connected wins on duplicate
identifiers, its assignment being the last). -/
def ctxLoad (seq : List ProductTables) : Except String (List (Tok × ProjectM)) :=
  ctxLoadSeq seq.reverse []

/-- `Context.project`: instance-cache lookup (LookupError when absent). -/
def ctxProject (ctx : ContextM) (id : Tok) : Except String ProjectM :=
  match lookupA ctx.cache id with
  | some pj => .ok pj
  | none => .error "no project with the given identifier"

/-- Effectful map over `Except`, made explicit for reasoning. -/
def mapExcept {α β : Type} (f : α → Except String β) : List α → Except String (List β)
  | [] => .ok []
  | a :: rest =>
    match f a with
    | .ok b =>
      match mapExcept f rest with
      | .ok bs => .ok (b :: bs)
      | .error e => .error e
    | .error e => .error e

/-- `Context.itercontexts` run eagerly (as `list(...)` consumes it):
resolve every ancestor context path through the project's own product
and the instance cache. -/
def ctxItercontexts (ctx : ContextM) (pj : ProjectM) : Except String (List ProjectM) :=
  mapExcept (fun p =>
    match identifierByFactor pj.product p with
    | .ok (id, _) => ctxProject ctx id
    | .error e => .error e) (projItercontexts pj.factor)

/-- The `for ... break / else None` pattern of `configure`: only the
FIRST element of the (lazy) context chain is ever produced. -/
def firstCtxProj (ctx : ContextM) (pj : ProjectM) : Except String (Option ProjectM) :=
  match projItercontexts pj.factor with
  | [] => .ok none
  | p :: _ =>
    match identifierByFactor pj.product p with
    | .ok (id, _) =>
      match ctxProject ctx id with
      | .ok c => .ok (some c)
      | .error e => .error e
    | .error e => .error e

/-- A symbol table (a project's `infrastructure`). -/
abbrev SymMap := List (Tok × Tok)

/-- `Context.symbols`: the `ChainMap` layer list — the reversed context
chain with the project itself appended LAST.  `infraOf` stands for the
external per-project `infrastructure` tables. -/
def ctxSymbols (ctx : ContextM) (infraOf : ProjectM → SymMap) (pj : ProjectM) :
    Except String (List SymMap) :=
  match ctxItercontexts ctx pj with
  | .error e => .error e
  | .ok ctxs => .ok ((ctxs.reverse ++ [pj]).map infraOf)

/-- `ChainMap` lookup: the FIRST mapping containing the key wins. -/
def chainLookup : List SymMap → Tok → Option Tok
  | [], _ => none
  | m :: ms, k =>
    match lookupA m k with
    | some v => some v
    | none => chainLookup ms k

/-- The first product of the search path whose `split` succeeds. -/
def firstSplit : List ProductTables → FP → Option (ProductTables × FP × FP)
  | [], _ => none
  | pd :: rest, q =>
    match productSplit pd q with
    | some (pj, f) => some (pd, pj, f)
    | none => firstSplit rest q

/-- `Context.split`: try products in CONNECTION order, resolve the first
match through `identifier_by_factor` and the instance cache. -/
def ctxSplit (ctx : ContextM) (q : FP) : Except String (ProductTables × ProjectM × FP) :=
  match firstSplit ctx.productSeq q with
  | none => .error "no such project in context"
  | some (pd, pjPath, f) =>
    match identifierByFactor pd pjPath with
    | .ok (iid, _) =>
      match ctxProject ctx iid with
      | .ok pj => .ok (pd, pj, f)
      | .error e => .error e
    | .error e => .error e

/-- One `inherit` call, recorded as an event: the receiving side and the
identifier of the project whose protocol instance is the parent
(`none` = Python `None`). -/
inductive InheritEvent where
  | pass1 (ctxname : FP) (parent : Option Tok)
  | pass2 (pjid : Tok) (parent : Option Tok)
deriving Repr, DecidableEq

/-- The sort key of `configure`'s context list: `str(k).count('.')`. -/
def dotCount (fp : FP) : Nat := (fpStr fp).count '.'

/-- The placeholder segment `configure` appends before splitting. -/
def placeholderSeg : Tok := "factor-placeholder".toList

/-- Pass 1 of `configure` for one context path: split the product/
project, take the first element of the context chain (or none) as the
parent, record the inherit call. -/
def configureCtxEvent (ctx : ContextM) (ctxname : FP) : Except String InheritEvent :=
  match ctxSplit ctx (ctxname ++ [ctxSeg, placeholderSeg]) with
  | .error e => .error e
  | .ok (_pd, pj, _f) =>
    match firstCtxProj ctx pj with
    | .error e => .error e
    | .ok par => .ok (.pass1 ctxname (par.map (fun (c : ProjectM) => c.identifier)))

/-- Pass 2 of `configure` for one cached project. -/
def configurePass2Event (ctx : ContextM) (pj : ProjectM) : Except String InheritEvent :=
  match firstCtxProj ctx pj with
  | .ok par => Except.ok (InheritEvent.pass2 pj.identifier
      (par.map (fun (c : ProjectM) => c.identifier)))
  | .error e => Except.error e

/-- `Context.configure` as its sequence of `inherit` calls: pass 1 over
all registered context paths sorted ascending by dot count, then pass 2
over every cached project. -/
def configureEvents (ctx : ContextM) : Except String (List InheritEvent) :=
  let ctxlist := ctx.productSeq.reverse.flatMap (fun pd => pd.contexts)
  let sortedCtxs := ctxlist.insertionSort (fun a b => dotCount a ≤ dotCount b)
  match mapExcept (configureCtxEvent ctx) sortedCtxs with
  | .error e => .error e
  | .ok evs1 =>
    match mapExcept (configurePass2Event ctx) (ctx.cache.map (fun e => e.2)) with
    | .error e => .error e
    | .ok evs2 => .ok (evs1 ++ evs2)

/-! ### Concrete configurations used by individual claims. -/

def protoTok : Tok := "factors/polynomial-1".toList

def c1prod : ProductTables :=
  { route := "r".toList, limit := 4096,
    projects := [("ci".toList, ([['a'], ctxSeg], [protoTok])),
                 ("pi".toList, ([['a'], ['p']], [protoTok]))],
    localTable := [([['a'], ctxSeg], ("ci".toList, [protoTok])),
                   ([['a'], ['p']], ("pi".toList, [protoTok]))],
    contexts := [[['a']]],
    roots := [[['a']]] }

def c1ctxProj : ProjectM := ⟨c1prod, "ci".toList, [['a'], ctxSeg], protoTok⟩

def c1pj : ProjectM := ⟨c1prod, "pi".toList, [['a'], ['p']], protoTok⟩

def c1cache : List (Tok × ProjectM) :=
  [("ci".toList, c1ctxProj), ("pi".toList, c1pj)]

def c1ctx : ContextM := ⟨[c1prod], c1cache⟩

def c1infra : ProjectM → SymMap := fun p =>
  if p.identifier = "ci".toList then [(['k'], ['1'])] else [(['k'], ['2'])]

/-- C1 (code bug): `symbols` builds `ChainMap(farthest, ..., nearest,
project)` — the FIRST chain-map layer wins lookups, so the farthest
ancestor context shadows everything and the project's own table, placed
last, always loses; this contradicts the source's own comment ("Symbols
defined nearest to project have priority").  Here the project `pi`
under context `a` defines `k = '2'`, its context project `ci` defines
`k = '1'`, and the overlay answers `'1'`. -/
theorem c1_symbols_ancestor_shadows_project :
    (ctxSymbols c1ctx c1infra c1pj).map (fun maps => chainLookup maps ['k']) =
      .ok (some ['1']) ∧
    lookupA (c1infra c1pj) ['k'] = some ['2'] :=
  ⟨rfl, rfl⟩

/-- C6: whenever the full walk would inspect more subdirectories than
the configured limit, the scan fails with the fatal scan-limit error
(no partial result), and a driving `update()` leaves the product's four
tables untouched. -/
theorem c6_scan_limit_fatal (pd : ProductTables) (tree : Dir)
    (h : inspCount tree pd.roots > pd.limit) :
    scanRun tree pd.roots pd.limit = .error scanLimitMsg ∧
    pdUpdate pd tree = (pd, some scanLimitMsg) := by
  have hs := scanRun_limit_exceeded tree pd.roots pd.limit h
  refine ⟨hs, ?_⟩
  unfold pdUpdate
  rw [hs]

def c6pd : ProductTables :=
  { route := "r".toList, limit := 0,
    projects := [], localTable := [], contexts := [], roots := [] }

def c6tree : Dir := .node "r".toList false none [.node ['a'] false none []]

theorem c6_scan_limit_fatal_witness :
    inspCount c6tree c6pd.roots > c6pd.limit ∧
    pdUpdate c6pd c6tree = (c6pd, some scanLimitMsg) := by
  have h2 : inspCount c6tree c6pd.roots = walkCount [] 1 := by
    rw [inspCount, if_pos (show c6pd.roots.isEmpty = true from rfl), walkCount.eq_def]
    rfl
  have h3 : walkCount ([] : List (FP × Dir)) 1 = 1 := by
    rw [walkCount.eq_def]
  have h : inspCount c6tree c6pd.roots > c6pd.limit := by
    rw [h2, h3]
    decide
  exact ⟨h, (c6_scan_limit_fatal c6pd c6tree h).2⟩

/-- C10: classifying explicit roots does not touch the scan counter;
when every explicit root is a non-context (e.g. all projects), nothing
is queued, so the scan succeeds with the counter still at zero for
EVERY limit, zero included. -/
theorem c10_explicit_roots_uncounted (tree : Dir) (roots : List FP) (limit : Nat)
    (hne : roots.isEmpty = false)
    (hnc : ∀ fp ∈ roots, ∀ d, descend tree fp = some d → d.isctx = false) :
    scanRun tree roots limit = .ok ((rootsPhase tree roots).1, 0) := by
  have hq : (rootsPhase tree roots).2 = [] := rootsPhase_no_ctx tree roots hnc
  rw [scanRun, if_neg (by simp [hne])]
  rcases hrp : rootsPhase tree roots with ⟨es, q⟩
  rw [hrp] at hq
  simp only at hq
  subst hq
  simp [bfsScan]

def c10tree : Dir :=
  .node "r".toList false none
    [.node ['p'] false (some ("pid".toList, [protoTok])) []]

theorem c10_explicit_roots_uncounted_witness :
    ([[['p']]] : List FP).isEmpty = false ∧
    (∀ fp ∈ ([[['p']]] : List FP), ∀ d, descend c10tree fp = some d →
      d.isctx = false) ∧
    scanRun c10tree [[['p']]] 0 = .ok ((rootsPhase c10tree [[['p']]]).1, 0) := by
  refine ⟨rfl, ?_, ?_⟩
  · decide
  · exact c10_explicit_roots_uncounted c10tree [[['p']]] 0 rfl (by decide)

/-- C8: `load()` fails whenever one of the three index files is absent
and leaves all four tables untouched (all-or-nothing); when the files
that are read before the missing one parse, the failure is precisely
the not-found error, never a silent default. -/
theorem c8_missing_index_file (pd : ProductTables) (F : ProductFiles)
    (h : F.projectsFile = none ∨ F.contextsFile = none ∨ F.rootsFile = none) :
    ((pdLoad pd F).1 = pd ∧ ((pdLoad pd F).2.isSome = true)) ∧
    (F.projectsFile = none → pdLoad pd F = (pd, some "file not found")) ∧
    (∀ ls es, F.projectsFile = some ls → parseProjectIndex ls = .ok es →
      F.contextsFile = none → pdLoad pd F = (pd, some "file not found")) ∧
    (∀ ls es cls, F.projectsFile = some ls → parseProjectIndex ls = .ok es →
      F.contextsFile = some cls → F.rootsFile = none →
      pdLoad pd F = (pd, some "file not found")) := by
  have hERR : ∀ e, loadTables pd F = .error e → pdLoad pd F = (pd, some e) := by
    intro e he
    unfold pdLoad
    rw [he]
  have key : (pdLoad pd F).1 = pd ∧ ((pdLoad pd F).2.isSome = true) := by
    rcases hp : F.projectsFile with _ | ls
    · have hv : loadTables pd F = .error "file not found" := by
        simp [loadTables, hp]
      rw [hERR _ hv]
      simp
    · rcases hparse : parseProjectIndex ls with e | es
      · have hv : loadTables pd F = .error e := by
          simp [loadTables, hp, hparse]
        rw [hERR _ hv]
        simp
      · rcases hc : F.contextsFile with _ | cls
        · have hv : loadTables pd F = .error "file not found" := by
            simp [loadTables, hp, hparse, hc]
          rw [hERR _ hv]
          simp
        · rcases hrt : F.rootsFile with _ | rt
          · have hv : loadTables pd F = .error "file not found" := by
              simp [loadTables, hp, hparse, hc, hrt]
            rw [hERR _ hv]
            simp
          · exfalso
            rcases h with h | h | h
            · rw [hp] at h; cases h
            · rw [hc] at h; cases h
            · rw [hrt] at h; cases h
  refine ⟨key, ?_, ?_, ?_⟩
  · intro hp
    apply hERR
    simp [loadTables, hp]
  · intro ls es hp hparse hc
    apply hERR
    simp [loadTables, hp, hparse, hc]
  · intro ls es cls hp hparse hc hrt
    apply hERR
    simp [loadTables, hp, hparse, hc, hrt]

theorem c8_missing_index_file_witness :
    ((⟨some [], none, some []⟩ : ProductFiles).projectsFile = none ∨
      (⟨some [], none, some []⟩ : ProductFiles).contextsFile = none ∨
      (⟨some [], none, some []⟩ : ProductFiles).rootsFile = none) ∧
    pdLoad c6pd ⟨some [], none, some []⟩ = (c6pd, some "file not found") := by
  refine ⟨Or.inr (Or.inl rfl), ?_⟩
  exact (c8_missing_index_file c6pd ⟨some [], none, some []⟩
    (Or.inr (Or.inl rfl))).2.2.1 [] [] rfl rfl rfl

theorem lookupA_eq_none {κ ν : Type} [DecidableEq κ] (l : List (κ × ν)) (k : κ)
    (h : ∀ e ∈ l, e.1 ≠ k) : lookupA l k = none := by
  induction l with
  | nil => rfl
  | cons e l ih =>
    have he : e.1 ≠ k := h e (List.mem_cons_self e l)
    simp [lookupA, he, ih (fun x hx => h x (List.mem_cons_of_mem e hx))]

theorem lookupA_isSome_of_mem {κ ν : Type} [DecidableEq κ]
    {l : List (κ × ν)} {e : κ × ν} (h : e ∈ l) : (lookupA l e.1).isSome = true := by
  induction l with
  | nil => cases h
  | cons a l ih =>
    by_cases ha : a.1 = e.1
    · simp [lookupA, ha]
    · rcases List.mem_cons.mp h with rfl | h1
      · exact absurd rfl ha
      · simp [lookupA, ha, ih h1]

theorem wfFP_suffix {a r : FP} (h : wfFP (a ++ r) = true) (hr : r ≠ []) :
    wfFP r = true := by
  simp only [wfFP, Bool.and_eq_true, List.all_eq_true]
  constructor
  · cases r with
    | nil => exact absurd rfl hr
    | cons s rs => rfl
  · exact fun s hs => wfFP_segs h s (List.mem_append_right a hs)

/-- Soundness of `Product.split`: a returned pair always names a
registered project path, and the query is that path exactly (empty
remainder) or extends it at a segment boundary. -/
theorem productSplit_some {pd : ProductTables} {fp x rest : FP}
    (hfp : wfFP fp = true) (hkeys : ∀ e ∈ pd.localTable, wfFP e.1 = true)
    (h : productSplit pd fp = some (x, rest)) :
    containsK pd.localTable x = true ∧
    ((rest = [] ∧ x = fp) ∨ (rest ≠ [] ∧ fp = x ++ rest)) := by
  unfold productSplit at h
  by_cases hck : containsK pd.localTable fp
  · rw [if_pos hck] at h
    simp only [Option.some.injEq, Prod.mk.injEq] at h
    obtain ⟨rfl, hrest⟩ := h
    exact ⟨hck, Or.inl ⟨hrest.symm, rfl⟩⟩
  · rw [if_neg hck] at h
    rcases hfind : pd.localTable.find?
        (fun e => (fpStr e.1 ++ ['.']).isPrefixOf (fpStr fp)) with _ | e
    · rw [hfind] at h
      cases h
    · rw [hfind] at h
      dsimp only at h
      have hp := List.find?_some hfind
      have hmem := List.mem_of_find?_eq_some hfind
      have hwx : wfFP e.1 = true := hkeys e hmem
      rcases (sepExtension_iff hwx hfp).mp hp with ⟨r, hrne, hfpeq⟩
      have hstr : fpStr fp = (fpStr e.1 ++ ['.']) ++ fpStr r := by
        rw [hfpeq]
        show joinSep '.' (e.1 ++ r) = (joinSep '.' e.1 ++ ['.']) ++ joinSep '.' r
        rw [joinSep_append '.' e.1 r (wfFP_ne_nil hwx) hrne]
        simp
      have hdrop : (fpStr fp).drop ((fpStr e.1).length + 1) = fpStr r := by
        rw [hstr]
        have hl : (fpStr e.1).length + 1 = (fpStr e.1 ++ ['.']).length := by simp
        rw [hl, List.drop_left]
      have hwr : wfFP r = true := wfFP_suffix (hfpeq ▸ hfp) hrne
      rw [hdrop, fpParse_fpStr hwr] at h
      simp only [Option.some.injEq, Prod.mk.injEq] at h
      obtain ⟨rfl, hrest⟩ := h
      subst hrest
      refine ⟨?_, Or.inr ⟨hrne, hfpeq⟩⟩
      unfold containsK
      exact lookupA_isSome_of_mem hmem

/-- Completeness of the no-match sentinel: when no registered path
matches exactly or as a segment-boundary ancestor, `split` is `None`. -/
theorem productSplit_none {pd : ProductTables} {fp : FP}
    (hfp : wfFP fp = true) (hkeys : ∀ e ∈ pd.localTable, wfFP e.1 = true)
    (hno : ∀ e ∈ pd.localTable, e.1 ≠ fp ∧ ∀ r, r ≠ [] → fp ≠ e.1 ++ r) :
    productSplit pd fp = none := by
  unfold productSplit
  have hck : containsK pd.localTable fp = false := by
    unfold containsK
    rw [lookupA_eq_none _ _ (fun e he => (hno e he).1)]
    rfl
  rw [if_neg (by simp [hck])]
  rw [List.find?_eq_none.mpr ?_]
  intro e he hpre
  rcases (sepExtension_iff (hkeys e he) hfp).mp hpre with ⟨r, hrne, heq⟩
  exact (hno e he).2 r hrne heq

def c5demo : ProductTables :=
  { route := "r".toList, limit := 4096,
    projects := [("pj".toList, ([['a'], ['b']], [protoTok]))],
    localTable := [([['a'], ['b']], ("pj".toList, [protoTok]))],
    contexts := [], roots := [] }

/-- C5: `Product.split` answers a pair only for an exact registered path
(empty remainder) or a segment-boundary extension of one; `a.bc` is
never matched under registered `a.b` while `a.b.c` is, with remainder
`c`; with no match the distinct `none` sentinel is returned. -/
theorem c5_split_segment_boundary (pd : ProductTables) (fp : FP)
    (hfp : wfFP fp = true) (hkeys : ∀ e ∈ pd.localTable, wfFP e.1 = true) :
    (∀ x rest, productSplit pd fp = some (x, rest) →
      containsK pd.localTable x = true ∧
      ((rest = [] ∧ x = fp) ∨ (rest ≠ [] ∧ fp = x ++ rest))) ∧
    ((∀ e ∈ pd.localTable, e.1 ≠ fp ∧ ∀ r, r ≠ [] → fp ≠ e.1 ++ r) →
      productSplit pd fp = none) ∧
    productSplit c5demo [['a'], ['b', 'c']] = none ∧
    productSplit c5demo [['a'], ['b'], ['c']] = some ([['a'], ['b']], [['c']]) := by
  refine ⟨fun x rest h => productSplit_some hfp hkeys h,
    fun hno => productSplit_none hfp hkeys hno, by decide, by decide⟩

theorem c5_split_segment_boundary_witness :
    wfFP [['a'], ['b'], ['c']] = true ∧
    (∀ e ∈ c5demo.localTable, wfFP e.1 = true) ∧
    productSplit c5demo [['a'], ['b', 'c']] = none ∧
    productSplit c5demo [['a'], ['b'], ['c']] = some ([['a'], ['b']], [['c']]) := by
  refine ⟨by decide, by decide, ?_⟩
  exact (c5_split_segment_boundary c5demo [['a'], ['b'], ['c']]
    (by decide) (by decide)).2.2

theorem ctxLoadStep_ok {pd : ProductTables} {c c' : List (Tok × ProjectM)}
    {e : Tok × ProjVal} (h : ctxLoadStep pd c e = .ok c') :
    ∃ proto cls, e.2.2 = [proto] ∧ importProtocol proto = .ok cls ∧
      c' = insertA c e.1 ⟨pd, e.1, e.2.1, proto⟩ := by
  unfold ctxLoadStep at h
  rcases he : e.2.2 with _ | ⟨p, ps⟩
  · rw [he] at h
    cases h
  · cases ps with
    | nil =>
      rw [he] at h
      dsimp only at h
      rcases hi : importProtocol p with er | cls
      · rw [hi] at h
        cases h
      · rw [hi] at h
        dsimp only at h
        injection h with h1
        exact ⟨p, cls, rfl, hi, h1.symm⟩
    | cons q qs =>
      rw [he] at h
      cases h

theorem ctxLoadList_not_found (pd : ProductTables) :
    ∀ (entries : List (Tok × ProjVal)) (c c' : List (Tok × ProjectM)),
    ctxLoadList pd entries c = .ok c' →
    ∀ id, lookupA entries id = none → lookupA c' id = lookupA c id := by
  intro entries
  induction entries with
  | nil =>
    intro c c' h id _
    injection h with h1
    rw [← h1]
  | cons e rest ih =>
    intro c c' h id hnone
    have hsplit : e.1 ≠ id ∧ lookupA rest id = none := by
      by_cases heq : e.1 = id
      · rw [lookupA, if_pos heq] at hnone
        cases hnone
      · rw [lookupA, if_neg heq] at hnone
        exact ⟨heq, hnone⟩
    unfold ctxLoadList at h
    rcases hs : ctxLoadStep pd c e with er | c1
    · rw [hs] at h
      cases h
    · rw [hs] at h
      obtain ⟨proto, cls, he2, hi, rfl⟩ := ctxLoadStep_ok hs
      calc lookupA c' id
          = lookupA (insertA c e.1 ⟨pd, e.1, e.2.1, proto⟩) id :=
            ih _ _ h id hsplit.2
        _ = lookupA c id :=
            lookupA_insertA_ne _ _ _ _ (Ne.symm hsplit.1)

theorem ctxLoadList_found (pd : ProductTables) :
    ∀ (entries : List (Tok × ProjVal)) (c c' : List (Tok × ProjectM)),
    entries.Pairwise (fun a b => a.1 ≠ b.1) →
    ctxLoadList pd entries c = .ok c' →
    ∀ id fp r, lookupA entries id = some (fp, r) →
    ∃ proto cls, r = [proto] ∧ importProtocol proto = .ok cls ∧
      lookupA c' id = some ⟨pd, id, fp, proto⟩ := by
  intro entries
  induction entries with
  | nil =>
    intro c c' _ _ id fp r hfind
    cases hfind
  | cons e rest ih =>
    intro c c' hpw h id fp r hfind
    rcases List.pairwise_cons.mp hpw with ⟨hhead, htail⟩
    unfold ctxLoadList at h
    rcases hs : ctxLoadStep pd c e with er | c1
    · rw [hs] at h
      cases h
    · rw [hs] at h
      obtain ⟨proto, cls, he2, hi, rfl⟩ := ctxLoadStep_ok hs
      by_cases heq : e.1 = id
      · rw [lookupA, if_pos heq] at hfind
        injection hfind with h2
        have hrestnone : lookupA rest id = none :=
          lookupA_eq_none rest id (fun x hx => by
            rw [← heq]
            exact Ne.symm (hhead x hx))
        have hc' : lookupA c' id =
            lookupA (insertA c e.1 ⟨pd, e.1, e.2.1, proto⟩) id :=
          ctxLoadList_not_found pd rest _ _ h id hrestnone
        refine ⟨proto, cls, ?_, hi, ?_⟩
        · have hr : e.2.2 = r := by rw [h2]
          rw [← hr]
          exact he2
        · have hfp : e.2.1 = fp := by rw [h2]
          rw [hc', ← heq, lookupA_insertA_self, hfp]
      · rw [lookupA, if_neg heq] at hfind
        exact ih _ _ htail h id fp r hfind

/-- C2: after `connect(X); connect(Y); load()`, a duplicated identifier
resolves to the EARLIEST-connected product's project (its cache
assignment happens last), and `split` on a path registered only in `Y`
resolves through `Y` to `Y`'s cached Project even though `X` is tried
first. -/
theorem c2_earliest_connected_wins
    (X Y : ProductTables) (cache : List (Tok × ProjectM))
    (hload : ctxLoad [X, Y] = .ok cache)
    (hXpw : X.projects.Pairwise (fun a b => a.1 ≠ b.1))
    (hYpw : Y.projects.Pairwise (fun a b => a.1 ≠ b.1))
    (id : Tok) (fpX : FP) (protoX : Tok)
    (hXid : lookupA X.projects id = some (fpX, [protoX]))
    (hYid : (lookupA Y.projects id).isSome = true)
    (q p rest : FP) (idY : Tok) (protoY : Tok) (fpY2 : FP)
    (hXsplit : productSplit X q = none)
    (hYsplit : productSplit Y q = some (p, rest))
    (hYloc : lookupA Y.localTable p = some (idY, [protoY]))
    (hYproj : lookupA Y.projects idY = some (fpY2, [protoY]))
    (hXabsent : lookupA X.projects idY = none) :
    lookupA cache id = some ⟨X, id, fpX, protoX⟩ ∧
    ctxSplit ⟨[X, Y], cache⟩ q = .ok (Y, ⟨Y, idY, fpY2, protoY⟩, rest) := by
  have hseq : ctxLoadSeq [Y, X] [] = .ok cache := hload
  rcases hY : ctxLoadProduct [] Y with er | c1
  · unfold ctxLoadSeq at hseq
    rw [hY] at hseq
    cases hseq
  · unfold ctxLoadSeq at hseq
    rw [hY] at hseq
    dsimp only at hseq
    unfold ctxLoadSeq at hseq
    rcases hX : ctxLoadProduct c1 X with er | c2
    · rw [hX] at hseq
      cases hseq
    · rw [hX] at hseq
      dsimp only at hseq
      unfold ctxLoadSeq at hseq
      injection hseq with hc2
      subst hc2
      have part1 : lookupA c2 id = some ⟨X, id, fpX, protoX⟩ := by
        obtain ⟨pr, cls, hpr, hi, hl⟩ :=
          ctxLoadList_found X X.projects c1 c2 hXpw hX id fpX [protoX] hXid
        injection hpr with hpr1
        rw [← hpr1] at hl
        exact hl
      obtain ⟨prY, clsY, hprY, hiY, hlY⟩ :=
        ctxLoadList_found Y Y.projects [] c1 hYpw hY idY fpY2 [protoY] hYproj
      injection hprY with hprY1
      rw [← hprY1] at hlY hiY
      have hcacheY : lookupA c2 idY = some ⟨Y, idY, fpY2, protoY⟩ := by
        rw [ctxLoadList_not_found X X.projects c1 c2 hX idY hXabsent]
        exact hlY
      refine ⟨part1, ?_⟩
      unfold ctxSplit firstSplit
      rw [hXsplit]
      unfold firstSplit
      rw [hYsplit]
      dsimp only
      unfold identifierByFactor
      rw [hYloc]
      dsimp only
      rw [hiY]
      dsimp only
      unfold ctxProject
      dsimp only
      rw [hcacheY]

def c2X : ProductTables :=
  { route := "x".toList, limit := 4096,
    projects := [("dup".toList, ([['a']], [protoTok]))],
    localTable := [([['a']], ("dup".toList, [protoTok]))],
    contexts := [], roots := [] }

def c2Y : ProductTables :=
  { route := "y".toList, limit := 4096,
    projects := [("dup".toList, ([['a']], [protoTok])),
                 ("uy".toList, ([['b']], [protoTok]))],
    localTable := [([['a']], ("dup".toList, [protoTok])),
                   ([['b']], ("uy".toList, [protoTok]))],
    contexts := [], roots := [] }

def c2cacheW : List (Tok × ProjectM) :=
  [("dup".toList, ⟨c2X, "dup".toList, [['a']], protoTok⟩),
   ("uy".toList, ⟨c2Y, "uy".toList, [['b']], protoTok⟩)]

theorem c2_earliest_connected_wins_witness :
    ctxLoad [c2X, c2Y] = .ok c2cacheW ∧
    lookupA c2cacheW "dup".toList =
      some ⟨c2X, "dup".toList, [['a']], protoTok⟩ ∧
    ctxSplit ⟨[c2X, c2Y], c2cacheW⟩ [['b'], ['c']] =
      .ok (c2Y, ⟨c2Y, "uy".toList, [['b']], protoTok⟩, [['c']]) := by
  have h := c2_earliest_connected_wins c2X c2Y c2cacheW rfl
    (by decide) (by decide)
    "dup".toList [['a']] protoTok rfl rfl
    [['b'], ['c']] [['b']] [['c']] "uy".toList protoTok [['b']]
    rfl rfl rfl rfl rfl
  exact ⟨rfl, h.1, h.2⟩

theorem lookupA_of_mem_pairwise {κ ν : Type} [DecidableEq κ]
    {l : List (κ × ν)} {e : κ × ν}
    (hpw : l.Pairwise (fun a b => a.1 ≠ b.1)) (he : e ∈ l) :
    lookupA l e.1 = some e.2 := by
  induction l with
  | nil => cases he
  | cons a l ih =>
    rcases List.pairwise_cons.mp hpw with ⟨hhead, htail⟩
    rcases List.mem_cons.mp he with rfl | h1
    · simp [lookupA]
    · have hne : a.1 ≠ e.1 := hhead e h1
      simp [lookupA, hne, ih htail h1]

/-- The bijection stated by the claim, as a decidable check: every
`projects` entry is mirrored in `local` and vice versa. -/
def invTables (t : ProductTables) : Bool :=
  t.projects.all (fun e => lookupA t.localTable e.2.1 == some (e.1, e.2.2)) &&
  t.localTable.all (fun e => lookupA t.projects e.2.1 == some (e.1, e.2.2))

def c4file : ProductFiles :=
  { projectsFile := some ["i1 p x".toList, "i2 p x".toList],
    contextsFile := some [],
    rootsFile := some [] }

/-- C4 (counterexample): a loadable PROJECTS index in which two
identifiers (`i1`, `i2`) declare the SAME factor path `p` — the local
comprehension keeps only the last one, so `projects` maps `i1` to `p`
while `local[p]` names `i2`: the tables are not exact inverses and the
claim fails as stated for `load()`-populated products. -/
theorem c4_bijection_counterexample :
    (loadTables c6pd c4file).map invTables = .ok false ∧
    (loadTables c6pd c4file).map (fun t => lookupA t.projects "i1".toList) =
      .ok (some ([['p']], ["x".toList])) ∧
    (loadTables c6pd c4file).map (fun t => lookupA t.localTable [['p']]) =
      .ok (some ("i2".toList, ["x".toList])) :=
  ⟨rfl, rfl, rfl⟩

/-- C4 (amended): whenever the local table is the comprehension the code
derives from `projects` (as in every `load()`/`update()`) AND no two
project entries share a factor path — which scanning distinct
directories guarantees — the two tables are exact inverses of each
other, with no entry unmatched on either side. -/
theorem c4_bijection_amended (t : ProductTables)
    (hl : t.localTable = deriveLocal t.projects)
    (hpw : t.projects.Pairwise (fun a b => a.1 ≠ b.1))
    (hpaths : t.projects.Pairwise (fun a b => a.2.1 ≠ b.2.1)) :
    invTables t = true := by
  have hmap : deriveLocal t.projects =
      t.projects.map (fun e => (e.2.1, (e.1, e.2.2))) := by
    unfold deriveLocal
    apply dictOf_eq_self
    rw [List.pairwise_map]
    exact hpaths
  have hswpw : (t.projects.map (fun e => (e.2.1, (e.1, e.2.2)))).Pairwise
      (fun a b => a.1 ≠ b.1) := by
    rw [List.pairwise_map]
    exact hpaths
  rw [invTables, hl, hmap, Bool.and_eq_true, List.all_eq_true, List.all_eq_true]
  constructor
  · intro e he
    have hmem : (e.2.1, (e.1, e.2.2)) ∈
        t.projects.map (fun x => (x.2.1, (x.1, x.2.2))) :=
      List.mem_map.mpr ⟨e, he, rfl⟩
    have := lookupA_of_mem_pairwise hswpw hmem
    simp only at this
    rw [this]
    simp
  · intro e he
    rcases List.mem_map.mp he with ⟨e0, he0, heq⟩
    subst heq
    have := lookupA_of_mem_pairwise hpw he0
    simp only
    rw [this]
    simp

theorem c4_bijection_amended_witness :
    c1prod.localTable = deriveLocal c1prod.projects ∧
    c1prod.projects.Pairwise (fun a b => a.1 ≠ b.1) ∧
    c1prod.projects.Pairwise (fun a b => a.2.1 ≠ b.2.1) ∧
    invTables c1prod = true := by
  refine ⟨rfl, by decide, by decide, ?_⟩
  exact c4_bijection_amended c1prod rfl (by decide) (by decide)

theorem wfTok_parts {t : Tok} (h : wfTok t = true) :
    ¬t = [] ∧ ∀ c ∈ t, isWs c = false := by
  simpa [wfTok] using h

theorem splitP_append_ws (p : Char → Bool) (w : Char) (hw : p w = true) :
    ∀ (s : List Char), splitP p (s ++ [w]) = splitP p s ++ [[]] := by
  intro s
  induction s with
  | nil =>
    simp [splitP, hw]
  | cons a as ih =>
    have h1 : splitP p (a :: (as ++ [w])) =
        match splitP p (as ++ [w]) with
        | [] => [[]]
        | t :: ts => if p a then [] :: t :: ts else (a :: t) :: ts := rfl
    rw [List.cons_append, h1, ih]
    rcases hs : splitP p as with _ | ⟨t, ts⟩
    · exact absurd hs (splitP_ne_nil p as)
    · have h2 : splitP p (a :: as) =
          if p a then [] :: t :: ts else (a :: t) :: ts := by
        have : splitP p (a :: as) =
            match splitP p as with
            | [] => [[]]
            | t :: ts => if p a then [] :: t :: ts else (a :: t) :: ts := rfl
        rw [this, hs]
      rw [h2]
      by_cases ha : p a
      · simp [ha]
      · simp [ha]

theorem pysplit_dropWhile (s : List Char) :
    pysplit (s.dropWhile isWs) = pysplit s := by
  induction s with
  | nil => rfl
  | cons a as ih =>
    by_cases ha : isWs a
    · rw [List.dropWhile_cons_of_pos ha]
      rw [ih]
      have h1 : splitP isWs (a :: as) = [] :: splitP isWs as := by
        have : splitP isWs (a :: as) =
            match splitP isWs as with
            | [] => [[]]
            | t :: ts => if isWs a then [] :: t :: ts else (a :: t) :: ts := rfl
        rw [this]
        rcases hs : splitP isWs as with _ | ⟨t, ts⟩
        · exact absurd hs (splitP_ne_nil isWs as)
        · simp [ha]
      unfold pysplit
      rw [h1]
      simp
    · rw [List.dropWhile_cons_of_neg ha]

theorem pysplit_rev_dropWhile (v : List Char) :
    pysplit (v.dropWhile isWs).reverse = pysplit v.reverse := by
  induction v with
  | nil => rfl
  | cons c vs ih =>
    by_cases hc : isWs c
    · rw [List.dropWhile_cons_of_pos hc, ih, List.reverse_cons]
      unfold pysplit
      rw [splitP_append_ws isWs c hc vs.reverse]
      simp
    · rw [List.dropWhile_cons_of_neg hc]

theorem pysplit_pyStrip (s : List Char) : pysplit (pyStrip s) = pysplit s := by
  unfold pyStrip
  rw [pysplit_rev_dropWhile (s.dropWhile isWs).reverse]
  rw [List.reverse_reverse, pysplit_dropWhile]

theorem pyStrip_of_no_ws {s : List Char} (h : ∀ c ∈ s, isWs c = false) :
    pyStrip s = s := by
  have h1 : s.dropWhile isWs = s := by
    cases s with
    | nil => rfl
    | cons a as =>
      rw [List.dropWhile_cons_of_neg]
      simp [h a (List.mem_cons_self a as)]
  have h2 : s.reverse.dropWhile isWs = s.reverse := by
    cases hs : s.reverse with
    | nil => rfl
    | cons a as =>
      rw [List.dropWhile_cons_of_neg]
      have ha : a ∈ s := by
        rw [← List.mem_reverse, hs]
        exact List.mem_cons_self a as
      simp [h a ha]
  unfold pyStrip
  rw [h1, h2, List.reverse_reverse]

theorem pySet_eq_self {α : Type} [DecidableEq α] {l : List α}
    (h : l.Pairwise (fun a b => a ≠ b)) : pySet l = l := by
  induction l with
  | nil => rfl
  | cons a l ih =>
    rcases List.pairwise_cons.mp h with ⟨hhead, htail⟩
    rw [pySet, ih htail]
    congr 1
    apply List.filter_eq_self.mpr
    intro b hb
    simp [Ne.symm (hhead b hb)]

/-- Parsing back the stored PROJECTS lines recovers the entry list. -/
theorem parseProjectIndex_projLines :
    ∀ (entries : List (Tok × ProjVal)),
    (∀ e ∈ entries, wfTok e.1 = true ∧ wfFP e.2.1 = true ∧
      ∀ x ∈ e.2.2, wfTok x = true) →
    parseProjectIndex (entries.map projLine) = .ok entries := by
  intro entries
  induction entries with
  | nil => intro _; rfl
  | cons e rest ih =>
    intro hwf
    obtain ⟨hid, hfp, hextra⟩ := hwf e (List.mem_cons_self e rest)
    have htoks : ∀ t ∈ e.1 :: fpStr e.2.1 :: e.2.2,
        t ≠ [] ∧ ∀ c ∈ t, isWs c = false := by
      intro t ht
      rcases List.mem_cons.mp ht with rfl | ht2
      · exact wfTok_parts hid
      · rcases List.mem_cons.mp ht2 with rfl | ht3
        · exact wfTok_parts (wfTok_fpStr hfp)
        · exact wfTok_parts (hextra t ht3)
    have hps : pysplit (pyStrip (projLine e)) = e.1 :: fpStr e.2.1 :: e.2.2 := by
      rw [pysplit_pyStrip]
      exact pysplit_joinSep ' ' _ htoks rfl
    rw [List.map_cons, parseProjectIndex, hps]
    dsimp only
    rw [ih (fun x hx => hwf x (List.mem_cons_of_mem e hx))]
    dsimp only
    rw [fpParse_fpStr hfp]

/-- A stable sort by a key taking distinct values on the list is
determined by the underlying multiset: any two permutations sort to the
same sequence. -/
theorem insertionSort_eq_of_perm_key {α κ : Type} [LinearOrder κ]
    (key : α → κ) (l1 l2 : List α)
    (hperm : l1.Perm l2)
    (hpw : l1.Pairwise (fun a b => key a ≠ key b)) :
    l1.insertionSort (fun a b => key a ≤ key b) =
    l2.insertionSort (fun a b => key a ≤ key b) := by
  haveI htot : IsTotal α (fun a b => key a ≤ key b) := ⟨fun a b => le_total _ _⟩
  haveI htr : IsTrans α (fun a b => key a ≤ key b) := ⟨fun a b c => le_trans⟩
  have hs1 := List.sorted_insertionSort (fun a b => key a ≤ key b) l1
  have hs2 := List.sorted_insertionSort (fun a b => key a ≤ key b) l2
  have hp1 := List.perm_insertionSort (fun a b => key a ≤ key b) l1
  have hp2 := List.perm_insertionSort (fun a b => key a ≤ key b) l2
  have hpp : (l1.insertionSort (fun a b => key a ≤ key b)).Perm
      (l2.insertionSort (fun a b => key a ≤ key b)) :=
    hp1.trans (hperm.trans hp2.symm)
  have hne1 : (l1.insertionSort (fun a b => key a ≤ key b)).Pairwise
      (fun a b => key a ≠ key b) :=
    (hp1.pairwise_iff (fun h => Ne.symm h)).mpr hpw
  have hstrict1 : (l1.insertionSort (fun a b => key a ≤ key b)).Pairwise
      (fun a b => key a < key b) := by
    have := List.Pairwise.and hs1 hne1
    exact this.imp (fun h => lt_of_le_of_ne h.1 h.2)
  have hne2 : (l2.insertionSort (fun a b => key a ≤ key b)).Pairwise
      (fun a b => key a ≠ key b) :=
    (hpp.pairwise_iff (fun h => Ne.symm h)).mp hne1
  have hstrict2 : (l2.insertionSort (fun a b => key a ≤ key b)).Pairwise
      (fun a b => key a < key b) := by
    have := List.Pairwise.and hs2 hne2
    exact this.imp (fun h => lt_of_le_of_ne h.1 h.2)
  haveI : IsAntisymm α (fun a b => key a < key b) :=
    ⟨fun a b h1 h2 => absurd h1 (not_lt_of_gt h2)⟩
  exact List.eq_of_perm_of_sorted hpp hstrict1 hstrict2

def c9pdA : ProductTables :=
  { route := "r".toList, limit := 4096, projects := [], localTable := [],
    contexts := [[['a'], ['c']], [['a'], ['b']]], roots := [] }

def c9pdB : ProductTables :=
  { c9pdA with contexts := [[['a'], ['b']], [['a'], ['c']]] }

/-- C9 (counterexample): `store` sorts the CONTEXTS lines with
`SortKey = itemgetter(0)`, i.e. by the path's FIRST SEGMENT only — not
by the string form.  Contexts `a.c` and `a.b` tie on `a`, so the stable
sort keeps set-iteration order: the same context set can be written as
`["a.c", "a.b"]` (not string-sorted) or `["a.b", "a.c"]`, and the claim
fails both on sortedness and on byte determinism. -/
theorem c9_store_counterexample :
    c9pdA.contexts.Perm c9pdB.contexts ∧
    (pdStore c9pdA).contextsFile = some ["a.c".toList, "a.b".toList] ∧
    (pdStore c9pdB).contextsFile = some ["a.b".toList, "a.c".toList] ∧
    pdStore c9pdA ≠ pdStore c9pdB ∧
    ¬("a.c".toList ≤ "a.b".toList) := by
  refine ⟨by decide, by decide, by decide, by decide, by decide⟩

/-- C9 (amended): `store` writes deterministically — equal table
contents (as unordered collections) give identical bytes — provided the
contexts' FIRST SEGMENTS are pairwise distinct (identifiers and roots
are already unique); PROJECTS lines come out sorted by identifier,
CONTEXTS lines sorted by the paths' first segment (the actual
`itemgetter(0)` key), and ROOTS naturally by path order. -/
theorem c9_store_deterministic (t1 t2 : ProductTables)
    (hPrjPerm : t1.projects.Perm t2.projects)
    (hPrjKeys : t1.projects.Pairwise (fun a b => a.1 ≠ b.1))
    (hCtxPerm : t1.contexts.Perm t2.contexts)
    (hCtxKeys : t1.contexts.Pairwise (fun a b => a.headD [] ≠ b.headD []))
    (hRtsPerm : t1.roots.Perm t2.roots)
    (hRtsNd : t1.roots.Pairwise (fun a b => a ≠ b))
    (hWfPrj : ∀ e ∈ t1.projects, wfTok e.1 = true ∧ wfFP e.2.1 = true ∧
      ∀ x ∈ e.2.2, wfTok x = true)
    (hWfCtx : ∀ c ∈ t1.contexts, wfFP c = true)
    (hWfRts : ∀ c ∈ t1.roots, wfFP c = true) :
    pdStore t1 = pdStore t2 ∧
    (∀ lines, (pdStore t1).projectsFile = some lines →
      lines.Pairwise (fun l1 l2 => (pysplit l1).headD [] ≤ (pysplit l2).headD [])) ∧
    (∀ lines, (pdStore t1).contextsFile = some lines →
      lines.Pairwise (fun l1 l2 => (fpParse l1).headD [] ≤ (fpParse l2).headD [])) ∧
    (∀ content, (pdStore t1).rootsFile = some content →
      ((pysplit content).map fpParse).Pairwise (fun a b => a ≤ b)) := by
  haveI ht1 : IsTotal (Tok × ProjVal) (fun a b => a.1 ≤ b.1) :=
    ⟨fun a b => le_total _ _⟩
  haveI ht2 : IsTrans (Tok × ProjVal) (fun a b => a.1 ≤ b.1) :=
    ⟨fun a b c => le_trans⟩
  haveI ht3 : IsTotal FP (fun a b => a.headD [] ≤ b.headD []) :=
    ⟨fun a b => le_total _ _⟩
  haveI ht4 : IsTrans FP (fun a b => a.headD [] ≤ b.headD []) :=
    ⟨fun a b c => le_trans⟩
  haveI ht5 : IsTotal FP (fun a b => a ≤ b) := ⟨fun a b => le_total _ _⟩
  haveI ht6 : IsTrans FP (fun a b => a ≤ b) := ⟨fun a b c => le_trans⟩
  have e1 : t1.projects.insertionSort (fun a b => a.1 ≤ b.1) =
      t2.projects.insertionSort (fun a b => a.1 ≤ b.1) :=
    insertionSort_eq_of_perm_key (fun e => e.1) _ _ hPrjPerm hPrjKeys
  have e2 : t1.contexts.insertionSort (fun a b => a.headD [] ≤ b.headD []) =
      t2.contexts.insertionSort (fun a b => a.headD [] ≤ b.headD []) :=
    insertionSort_eq_of_perm_key (fun c => c.headD []) _ _ hCtxPerm hCtxKeys
  have e3 : t1.roots.insertionSort (fun a b => a ≤ b) =
      t2.roots.insertionSort (fun a b => a ≤ b) :=
    insertionSort_eq_of_perm_key (fun c => c) _ _ hRtsPerm hRtsNd
  refine ⟨by unfold pdStore; rw [e1, e2, e3], ?_, ?_, ?_⟩
  · intro lines hlines
    have hl : lines = (t1.projects.insertionSort (fun a b => a.1 ≤ b.1)).map projLine := by
      have := hlines
      unfold pdStore at this
      simp only [Option.some.injEq] at this
      exact this.symm
    subst hl
    apply List.pairwise_map.mpr
    have hsorted := List.sorted_insertionSort (fun a b => a.1 ≤ b.1) t1.projects
    refine hsorted.imp_of_mem ?_
    intro a b ha hb hab
    have hmema : a ∈ t1.projects :=
      (List.perm_insertionSort (fun a b => a.1 ≤ b.1) t1.projects).mem_iff.mp ha
    have hmemb : b ∈ t1.projects :=
      (List.perm_insertionSort (fun a b => a.1 ≤ b.1) t1.projects).mem_iff.mp hb
    have hkey : ∀ e ∈ t1.projects, (pysplit (projLine e)).headD [] = e.1 := by
      intro e he
      obtain ⟨hid, hfp, hextra⟩ := hWfPrj e he
      have : pysplit (projLine e) = e.1 :: fpStr e.2.1 :: e.2.2 := by
        apply pysplit_joinSep ' ' _ ?_ rfl
        intro t ht
        rcases List.mem_cons.mp ht with rfl | ht2
        · exact wfTok_parts hid
        · rcases List.mem_cons.mp ht2 with rfl | ht3
          · exact wfTok_parts (wfTok_fpStr hfp)
          · exact wfTok_parts (hextra t ht3)
      rw [this]
      rfl
    rw [hkey a hmema, hkey b hmemb]
    exact hab
  · intro lines hlines
    have hl : lines = (t1.contexts.insertionSort
        (fun a b => a.headD [] ≤ b.headD [])).map fpStr := by
      have := hlines
      unfold pdStore at this
      simp only [Option.some.injEq] at this
      exact this.symm
    subst hl
    apply List.pairwise_map.mpr
    have hsorted := List.sorted_insertionSort
      (fun a b => a.headD ([] : Tok) ≤ b.headD []) t1.contexts
    refine hsorted.imp_of_mem ?_
    intro a b ha hb hab
    have hmema : a ∈ t1.contexts :=
      (List.perm_insertionSort (fun a b => a.headD ([] : Tok) ≤ b.headD [])
        t1.contexts).mem_iff.mp ha
    have hmemb : b ∈ t1.contexts :=
      (List.perm_insertionSort (fun a b => a.headD ([] : Tok) ≤ b.headD [])
        t1.contexts).mem_iff.mp hb
    rw [fpParse_fpStr (hWfCtx a hmema), fpParse_fpStr (hWfCtx b hmemb)]
    exact hab
  · intro content hcontent
    have hc : content = joinSep '\n'
        ((t1.roots.insertionSort (fun a b => a ≤ b)).map fpStr) := by
      have := hcontent
      unfold pdStore at this
      simp only [Option.some.injEq] at this
      exact this.symm
    subst hc
    have htoks : ∀ t ∈ (t1.roots.insertionSort (fun a b => a ≤ b)).map fpStr,
        t ≠ [] ∧ ∀ c ∈ t, isWs c = false := by
      intro t ht
      rcases List.mem_map.mp ht with ⟨c, hcmem, rfl⟩
      have hcm : c ∈ t1.roots :=
        (List.perm_insertionSort (fun a b => a ≤ b) t1.roots).mem_iff.mp hcmem
      exact wfTok_parts (wfTok_fpStr (hWfRts c hcm))
    rw [pysplit_joinSep '\n' _ htoks rfl, List.map_map]
    have hmm : (t1.roots.insertionSort (fun a b => a ≤ b)).map (fpParse ∘ fpStr) =
        t1.roots.insertionSort (fun a b => a ≤ b) := by
      have hpt : ∀ c ∈ t1.roots.insertionSort (fun a b => a ≤ b),
          (fpParse ∘ fpStr) c = id c := by
        intro c hcmem
        have hcm : c ∈ t1.roots :=
          (List.perm_insertionSort (fun a b => a ≤ b) t1.roots).mem_iff.mp hcmem
        simpa using fpParse_fpStr (hWfRts c hcm)
      rw [List.map_congr_left hpt, List.map_id]
    rw [hmm]
    exact List.sorted_insertionSort (fun a b => a ≤ b) t1.roots

def c9w1 : ProductTables :=
  { route := "r".toList, limit := 4096,
    projects := [("i2".toList, ([['q']], [protoTok])),
                 ("i1".toList, ([['p']], [protoTok]))],
    localTable := [],
    contexts := [[['b']], [['a']]],
    roots := [[['z']], [['y']]] }

def c9w2 : ProductTables :=
  { c9w1 with
    projects := [("i1".toList, ([['p']], [protoTok])),
                 ("i2".toList, ([['q']], [protoTok]))],
    contexts := [[['a']], [['b']]],
    roots := [[['y']], [['z']]] }

theorem c9_store_deterministic_witness :
    c9w1.projects.Perm c9w2.projects ∧
    c9w1.contexts.Perm c9w2.contexts ∧
    c9w1.roots.Perm c9w2.roots ∧
    pdStore c9w1 = pdStore c9w2 := by
  refine ⟨by decide, by decide, by decide, ?_⟩
  exact (c9_store_deterministic c9w1 c9w2 (by decide) (by decide) (by decide)
    (by decide) (by decide) (by decide) (by decide) (by decide) (by decide)).1

/-- C3: storing any well-formed table state produced by `update()`
(keys unique, paths unique, whitespace-free fields, set tables without
duplicates) and loading it back on a fresh product yields the same four
tables up to order (permutations as maps/sets), extra opaque project
fields included. -/
theorem c3_store_load_round_trip (t pd0 : ProductTables)
    (hl : t.localTable = deriveLocal t.projects)
    (hPrjKeys : t.projects.Pairwise (fun a b => a.1 ≠ b.1))
    (hPrjPaths : t.projects.Pairwise (fun a b => a.2.1 ≠ b.2.1))
    (hCtxNd : t.contexts.Pairwise (fun a b => a ≠ b))
    (hRtsNd : t.roots.Pairwise (fun a b => a ≠ b))
    (hWfPrj : ∀ e ∈ t.projects, wfTok e.1 = true ∧ wfFP e.2.1 = true ∧
      ∀ x ∈ e.2.2, wfTok x = true)
    (hWfCtx : ∀ c ∈ t.contexts, wfFP c = true)
    (hWfRts : ∀ c ∈ t.roots, wfFP c = true) :
    ∃ t', loadTables pd0 (pdStore t) = .ok t' ∧
      t'.projects.Perm t.projects ∧
      t'.localTable.Perm t.localTable ∧
      t'.contexts.Perm t.contexts ∧
      t'.roots.Perm t.roots := by
  have hspPerm := List.perm_insertionSort
    (fun (a b : Tok × ProjVal) => a.1 ≤ b.1) t.projects
  have hscPerm := List.perm_insertionSort
    (fun (a b : FP) => a.headD [] ≤ b.headD []) t.contexts
  have hsrPerm := List.perm_insertionSort (fun (a b : FP) => a ≤ b) t.roots
  have hwfSp : ∀ e ∈ t.projects.insertionSort (fun a b => a.1 ≤ b.1),
      wfTok e.1 = true ∧ wfFP e.2.1 = true ∧ ∀ x ∈ e.2.2, wfTok x = true :=
    fun e he => hWfPrj e (hspPerm.mem_iff.mp he)
  have hparse := parseProjectIndex_projLines
    (t.projects.insertionSort (fun a b => a.1 ≤ b.1)) hwfSp
  have hkeysSp : (t.projects.insertionSort (fun a b => a.1 ≤ b.1)).Pairwise
      (fun a b => a.1 ≠ b.1) :=
    (hspPerm.pairwise_iff (fun h => Ne.symm h)).mpr hPrjKeys
  have hpathsSp : (t.projects.insertionSort (fun a b => a.1 ≤ b.1)).Pairwise
      (fun a b => a.2.1 ≠ b.2.1) :=
    (hspPerm.pairwise_iff (fun h => Ne.symm h)).mpr hPrjPaths
  have hdict : dictOf (t.projects.insertionSort (fun a b => a.1 ≤ b.1)) =
      t.projects.insertionSort (fun a b => a.1 ≤ b.1) :=
    dictOf_eq_self _ hkeysSp
  have hderive : deriveLocal (t.projects.insertionSort (fun a b => a.1 ≤ b.1)) =
      (t.projects.insertionSort (fun a b => a.1 ≤ b.1)).map
        (fun e => (e.2.1, (e.1, e.2.2))) := by
    unfold deriveLocal
    apply dictOf_eq_self
    rw [List.pairwise_map]
    exact hpathsSp
  have hClines : ((t.contexts.insertionSort
      (fun a b => a.headD [] ≤ b.headD [])).map fpStr).map
        (fun l => fpParse (pyStrip l)) =
      t.contexts.insertionSort (fun a b => a.headD [] ≤ b.headD []) := by
    rw [List.map_map]
    have hpt : ∀ c ∈ t.contexts.insertionSort (fun a b => a.headD [] ≤ b.headD []),
        ((fun l => fpParse (pyStrip l)) ∘ fpStr) c = id c := by
      intro c hcmem
      have hcm : c ∈ t.contexts := hscPerm.mem_iff.mp hcmem
      have hwfc := hWfCtx c hcm
      have hstrip : pyStrip (fpStr c) = fpStr c :=
        pyStrip_of_no_ws (wfTok_parts (wfTok_fpStr hwfc)).2
      simp only [Function.comp_apply, hstrip, id_eq]
      exact fpParse_fpStr hwfc
    rw [List.map_congr_left hpt, List.map_id]
  have hCset : pySet (t.contexts.insertionSort
      (fun a b => a.headD [] ≤ b.headD [])) =
      t.contexts.insertionSort (fun a b => a.headD [] ≤ b.headD []) :=
    pySet_eq_self ((hscPerm.pairwise_iff (fun h => Ne.symm h)).mpr hCtxNd)
  have hRsplit : pysplit (joinSep '\n'
      ((t.roots.insertionSort (fun a b => a ≤ b)).map fpStr)) =
      (t.roots.insertionSort (fun a b => a ≤ b)).map fpStr := by
    apply pysplit_joinSep '\n' _ ?_ rfl
    intro x hx
    rcases List.mem_map.mp hx with ⟨c, hcmem, rfl⟩
    exact wfTok_parts (wfTok_fpStr (hWfRts c (hsrPerm.mem_iff.mp hcmem)))
  have hRmap : ((t.roots.insertionSort (fun a b => a ≤ b)).map fpStr).map fpParse =
      t.roots.insertionSort (fun a b => a ≤ b) := by
    rw [List.map_map]
    have hpt : ∀ c ∈ t.roots.insertionSort (fun a b => a ≤ b),
        (fpParse ∘ fpStr) c = id c := by
      intro c hcmem
      simpa using fpParse_fpStr (hWfRts c (hsrPerm.mem_iff.mp hcmem))
    rw [List.map_congr_left hpt, List.map_id]
  have hRset : pySet (t.roots.insertionSort (fun a b => a ≤ b)) =
      t.roots.insertionSort (fun a b => a ≤ b) :=
    pySet_eq_self ((hsrPerm.pairwise_iff (fun h => Ne.symm h)).mpr hRtsNd)
  have hlt : t.localTable = t.projects.map (fun e => (e.2.1, (e.1, e.2.2))) := by
    rw [hl]
    unfold deriveLocal
    apply dictOf_eq_self
    rw [List.pairwise_map]
    exact hPrjPaths
  apply Exists.intro ({ pd0 with
    projects := t.projects.insertionSort (fun a b => a.1 ≤ b.1)
    localTable := deriveLocal (t.projects.insertionSort (fun a b => a.1 ≤ b.1))
    contexts := t.contexts.insertionSort (fun a b => a.headD [] ≤ b.headD [])
    roots := t.roots.insertionSort (fun a b => a ≤ b) })
  refine ⟨?_, ?_, ?_, ?_, ?_⟩
  · unfold pdStore loadTables
    dsimp only
    rw [hparse]
    dsimp only
    rw [hdict, hClines, hCset, hRsplit, hRmap, hRset]
  · exact hspPerm
  · rw [hderive, hlt]
    exact hspPerm.map _
  · exact hscPerm
  · exact hsrPerm

def c3w : ProductTables :=
  { route := "r".toList, limit := 4096,
    projects := [("i2".toList, ([['q']], [protoTok, "extra".toList])),
                 ("i1".toList, ([['p']], [protoTok]))],
    localTable := [([['q']], ("i2".toList, [protoTok, "extra".toList])),
                   ([['p']], ("i1".toList, [protoTok]))],
    contexts := [[['b']], [['a']]],
    roots := [[['z']], [['y']]] }

theorem c3_store_load_round_trip_witness :
    c3w.localTable = deriveLocal c3w.projects ∧
    c3w.projects.Pairwise (fun a b => a.1 ≠ b.1) ∧
    (∃ t', loadTables c6pd (pdStore c3w) = .ok t' ∧
      t'.projects.Perm c3w.projects ∧
      t'.localTable.Perm c3w.localTable ∧
      t'.contexts.Perm c3w.contexts ∧
      t'.roots.Perm c3w.roots) := by
  refine ⟨rfl, by decide, ?_⟩
  exact c3_store_load_round_trip c3w c6pd rfl (by decide) (by decide)
    (by decide) (by decide) (by decide) (by decide) (by decide)

theorem mapExcept_get {α β : Type} (f : α → Except String β) :
    ∀ (l : List α) (bs : List β), mapExcept f l = .ok bs →
    ∀ i b, bs.get? i = some b → ∃ a, l.get? i = some a ∧ f a = .ok b := by
  intro l
  induction l with
  | nil =>
    intro bs h i b hb
    injection h with h1
    rw [← h1] at hb
    cases hb
  | cons a rest ih =>
    intro bs h i b hb
    unfold mapExcept at h
    rcases hf : f a with e | b0
    · rw [hf] at h
      cases h
    · rw [hf] at h
      dsimp only at h
      rcases hrec : mapExcept f rest with e | bs0
      · rw [hrec] at h
        cases h
      · rw [hrec] at h
        injection h with h1
        rw [← h1] at hb
        cases i with
        | zero =>
          rw [List.get?_cons_zero] at hb
          injection hb with hb1
          subst hb1
          exact ⟨a, rfl, hf⟩
        | succ n =>
          rw [List.get?_cons_succ] at hb
          rcases ih bs0 hrec n b hb with ⟨a2, ha2, hfa2⟩
          exact ⟨a2, by rwa [List.get?_cons_succ], hfa2⟩

theorem configureCtxEvent_ok {ctx : ContextM} {c : FP} {ev : InheritEvent}
    (h : configureCtxEvent ctx c = .ok ev) :
    ∃ pd pj f par, ctxSplit ctx (c ++ [ctxSeg, placeholderSeg]) = .ok (pd, pj, f) ∧
      firstCtxProj ctx pj = .ok par ∧
      ev = .pass1 c (par.map (fun pr : ProjectM => pr.identifier)) := by
  unfold configureCtxEvent at h
  rcases hs : ctxSplit ctx (c ++ [ctxSeg, placeholderSeg]) with e | ⟨pd, pj, f⟩
  · rw [hs] at h
    cases h
  · rw [hs] at h
    dsimp only at h
    rcases hf : firstCtxProj ctx pj with e | par
    · rw [hf] at h
      cases h
    · rw [hf] at h
      dsimp only at h
      injection h with h1
      exact ⟨pd, pj, f, par, rfl, hf, h1.symm⟩

theorem configurePass2Event_ok {ctx : ContextM} {pj : ProjectM} {ev : InheritEvent}
    (h : configurePass2Event ctx pj = .ok ev) :
    ∃ id p, ev = .pass2 id p := by
  unfold configurePass2Event at h
  rcases hf : firstCtxProj ctx pj with e | par
  · rw [hf] at h
    cases h
  · rw [hf] at h
    injection h with h1
    exact ⟨pj.identifier, par.map (fun pr : ProjectM => pr.identifier), h1.symm⟩

theorem dotCount_eq {fp : FP} (h : wfFP fp = true) : dotCount fp = fp.length - 1 := by
  have hsegs := wfFP_segs h
  clear h
  induction fp with
  | nil => rfl
  | cons s rest ih =>
    cases rest with
    | nil =>
      have hs := hsegs s (List.mem_cons_self s [])
      show List.count '.' (joinSep '.' [s]) = 0
      have hj : joinSep '.' [s] = s := rfl
      rw [hj, List.count_eq_zero.mpr]
      intro hmem
      exact ((wfSeg_parts hs).2 '.' hmem).2 rfl
    | cons s2 rest2 =>
      have hs := hsegs s (List.mem_cons_self s (s2 :: rest2))
      have hih := ih (fun x hx => hsegs x (List.mem_cons_of_mem s hx))
      show List.count '.' (joinSep '.' (s :: s2 :: rest2)) = (s :: s2 :: rest2).length - 1
      have hj : joinSep '.' (s :: s2 :: rest2) = s ++ '.' :: joinSep '.' (s2 :: rest2) := rfl
      rw [hj, List.count_append, List.count_cons]
      have hzero : List.count '.' s = 0 := by
        rw [List.count_eq_zero]
        intro hmem
        exact ((wfSeg_parts hs).2 '.' hmem).2 rfl
      have hih' : List.count '.' (joinSep '.' (s2 :: rest2)) = (s2 :: rest2).length - 1 :=
        hih
      rw [hzero, hih']
      simp only [List.length_cons, beq_self_eq_true, if_true]
      omega

/-- C7 (amended): `configure` issues its pass-1 `inherit` calls in
ascending dot-count (= nesting-depth) order, so an enclosing context is
always configured before any context it strictly encloses; each call's
parent is the protocol of the FIRST element of the split project's own
context chain — for a context project that chain begins with itself, so
a top-level context inherits from its own protocol, not from none. -/
theorem c7_configure_order (ctx : ContextM) (evs : List InheritEvent)
    (hok : configureEvents ctx = .ok evs) :
    (∀ i j a pa b pb, evs.get? i = some (.pass1 a pa) →
      evs.get? j = some (.pass1 b pb) →
      wfFP a = true → wfFP b = true → (∃ r, r ≠ [] ∧ b = a ++ r) → i < j) ∧
    (∀ i c p, evs.get? i = some (.pass1 c p) →
      ∃ pd pj f par, ctxSplit ctx (c ++ [ctxSeg, placeholderSeg]) = .ok (pd, pj, f) ∧
        firstCtxProj ctx pj = .ok par ∧
        p = par.map (fun pr : ProjectM => pr.identifier)) := by
  unfold configureEvents at hok
  dsimp only at hok
  rcases h1 : mapExcept (configureCtxEvent ctx)
      ((ctx.productSeq.reverse.flatMap (fun pd => pd.contexts)).insertionSort
        (fun a b => dotCount a ≤ dotCount b)) with e | evs1
  · rw [h1] at hok
    cases hok
  · rw [h1] at hok
    dsimp only at hok
    rcases h2 : mapExcept (configurePass2Event ctx)
        (ctx.cache.map (fun e => e.2)) with e | evs2
    · rw [h2] at hok
      cases hok
    · rw [h2] at hok
      injection hok with hev
      subst hev
      have hpass1At : ∀ i a pa, (evs1 ++ evs2).get? i = some (.pass1 a pa) →
          evs1.get? i = some (.pass1 a pa) := by
        intro i a pa hi
        by_cases hlen : i < evs1.length
        · rwa [List.get?_append hlen] at hi
        · exfalso
          rw [List.get?_append_right (le_of_not_lt hlen)] at hi
          rcases mapExcept_get _ _ _ h2 _ _ hi with ⟨pj, _, hfpj⟩
          rcases configurePass2Event_ok hfpj with ⟨id2, p2, heq⟩
          cases heq
      constructor
      · intro i j a pa b pb hi hj hwa hwb hext
        have hi1 := hpass1At i a pa hi
        have hj1 := hpass1At j b pb hj
        rcases mapExcept_get _ _ _ h1 _ _ hi1 with ⟨ca, hca, hfa⟩
        rcases mapExcept_get _ _ _ h1 _ _ hj1 with ⟨cb, hcb, hfb⟩
        rcases configureCtxEvent_ok hfa with ⟨_, _, _, _, _, _, heva⟩
        rcases configureCtxEvent_ok hfb with ⟨_, _, _, _, _, _, hevb⟩
        injection heva with heva1 _
        injection hevb with hevb1 _
        subst heva1
        subst hevb1
        rcases hext with ⟨r, hrne, rfl⟩
        have hdc : dotCount a < dotCount (a ++ r) := by
          rw [dotCount_eq hwa, dotCount_eq hwb]
          have h1a : a ≠ [] := wfFP_ne_nil hwa
          have h1r : 1 ≤ a.length := by
            cases a with
            | nil => exact absurd rfl h1a
            | cons x xs => simp
          have h2r : 1 ≤ r.length := by
            cases r with
            | nil => exact absurd rfl hrne
            | cons x xs => simp
          rw [List.length_append]
          omega
        haveI : IsTotal FP (fun a b => dotCount a ≤ dotCount b) :=
          ⟨fun a b => le_total _ _⟩
        haveI : IsTrans FP (fun a b => dotCount a ≤ dotCount b) :=
          ⟨fun a b c => le_trans⟩
        have hsorted := List.sorted_insertionSort
          (fun a b => dotCount a ≤ dotCount b)
          (ctx.productSeq.reverse.flatMap (fun pd => pd.contexts))
        by_contra hcon
        push_neg at hcon
        rcases lt_or_eq_of_le hcon with hlt | heq
        · rcases List.get?_eq_some.mp hca with ⟨hilen, hgi⟩
          rcases List.get?_eq_some.mp hcb with ⟨hjlen, hgj⟩
          have hrel := hsorted.rel_get_of_lt (a := ⟨j, hjlen⟩) (b := ⟨i, hilen⟩)
            (Fin.mk_lt_mk.mpr hlt)
          rw [hgi, hgj] at hrel
          exact absurd hrel (not_le_of_gt hdc)
        · rw [heq] at hcb
          rw [hca] at hcb
          injection hcb with hab
          have hlen' := congrArg List.length hab
          rw [List.length_append] at hlen'
          have hr0 : r.length = 0 := by omega
          exact hrne (List.length_eq_zero.mp hr0)
      · intro i c p hi
        have hi1 := hpass1At i c p hi
        rcases mapExcept_get _ _ _ h1 _ _ hi1 with ⟨cc, hcc, hfc⟩
        rcases configureCtxEvent_ok hfc with ⟨pd, pj, f, par, hsp, hfp, hevc⟩
        injection hevc with hc1 hc2
        subst hc1
        exact ⟨pd, pj, f, par, hsp, hfp, hc2⟩

def c7prod : ProductTables :=
  { route := "r".toList, limit := 4096,
    projects := [("ca".toList, ([['a'], ctxSeg], [protoTok])),
                 ("cab".toList, ([['a'], ['b'], ctxSeg], [protoTok])),
                 ("pp".toList, ([['a'], ['b'], ['p']], [protoTok]))],
    localTable := [([['a'], ctxSeg], ("ca".toList, [protoTok])),
                   ([['a'], ['b'], ctxSeg], ("cab".toList, [protoTok])),
                   ([['a'], ['b'], ['p']], ("pp".toList, [protoTok]))],
    contexts := [[['a'], ['b']], [['a']]],
    roots := [[['a']]] }

def c7cache : List (Tok × ProjectM) :=
  [("ca".toList, ⟨c7prod, "ca".toList, [['a'], ctxSeg], protoTok⟩),
   ("cab".toList, ⟨c7prod, "cab".toList, [['a'], ['b'], ctxSeg], protoTok⟩),
   ("pp".toList, ⟨c7prod, "pp".toList, [['a'], ['b'], ['p']], protoTok⟩)]

def c7ctx : ContextM := ⟨[c7prod], c7cache⟩

def c7events : List InheritEvent :=
  [.pass1 [['a']] (some "ca".toList),
   .pass1 [['a'], ['b']] (some "cab".toList),
   .pass2 "ca".toList (some "ca".toList),
   .pass2 "cab".toList (some "cab".toList),
   .pass2 "pp".toList (some "cab".toList)]

/-- C7 (counterexample): with contexts `a` and `a.b` under one product,
`configure` processes `a` before `a.b` (the ordering holds) but the
pass-1 inherit call for `a` — a context with NO enclosing context —
receives the protocol of `a`'s own context project `ca`, because the
structural chain `~(factor ** 1)` of a context project begins with the
context itself; it is never `None` as the claim states. -/
theorem c7_configure_counterexample :
    configureEvents c7ctx = .ok c7events ∧
    c7events.get? 0 = some (.pass1 [['a']] (some "ca".toList)) ∧
    (some "ca".toList : Option Tok) ≠ none :=
  ⟨rfl, rfl, by simp⟩

theorem c7_configure_order_witness :
    configureEvents c7ctx = .ok c7events ∧ (0 : Nat) < 1 := by
  refine ⟨rfl, ?_⟩
  exact (c7_configure_order c7ctx c7events rfl).1 0 1
    [['a']] (some "ca".toList) [['a'], ['b']] (some "cab".toList)
    rfl rfl (by decide) (by decide) ⟨[['b']], by decide, rfl⟩

end ProjectSystem
